import Mathlib

/-!
Verification of the rusticl kernel-argument / launch-marshalling layer
(src/gallium/frontends/rusticl/core/kernel.rs) and the NAK SM50 shader
encoder (src/nouveau/compiler/nak/sm50.rs) of this repository.

The Rust code is shallowly embedded: machine integers become natural
numbers with explicit masks and moduli where overflow matters, panics
and assertion failures become the value none of an Option, and the
mutable state threaded through the marshaller becomes an explicit state
record.  Helper crates of the repository that are not part of the
excerpt (the mesa blob reader, the bitview crate, the mesa math utils
and the nak legalize helpers) are modelled from the specification; each
such definition carries a doc comment starting with
Modelled from the spec.
-/

namespace ZinkSpec

/-! ## Bit-field view helpers -/

/-- Modelled from the spec: the Bit-Field View component reinterprets a
fixed-size binary word as an addressable collection of bit ranges with
get/set of arbitrary ranges as unsigned integers (bitview crate, not in
the excerpt).  getField w lo len reads bits [lo, lo+len). -/
def getField (w lo len : ℕ) : ℕ :=
  w / 2 ^ lo % 2 ^ len

/-- Modelled from the spec: set of a bit range.  setField w lo len v
replaces bits [lo, lo+len) of w by v (truncated to len bits). -/
def setField (w lo len v : ℕ) : ℕ :=
  w % 2 ^ lo + v % 2 ^ len * 2 ^ lo + w / 2 ^ (lo + len) * 2 ^ (lo + len)

/-- Reads a len-bit field back as a signed (two's complement) integer. -/
def signExtend (len u : ℕ) : ℤ :=
  if u < 2 ^ (len - 1) then (u : ℤ) else (u : ℤ) - 2 ^ len

/-- Modelled from the spec: mesa_rust_util::math::div_round_up, the
ceiling division used for grid tiling (`ceil(grid[i]/hw_max[i])`). -/
def divRoundUp (a b : ℕ) : ℕ :=
  (a + b - 1) / b

/-! ## SM50 immediate packing (SM50Encoder::set_src_imm_i20 / _f20)

The Rust methods write into the instruction word through the bit view;
the embedding returns the pair (19-bit field contents, sign bit).  The
`assert!` guarding lossless packing becomes none. -/

/-- Embedding of SM50Encoder::set_src_imm_i20: asserts that bits 19..31
of the 32-bit immediate are all zero or all one, then packs the low 19
bits and a separate sign bit. -/
def set_src_imm_i20 (i : ℕ) : Option (ℕ × ℕ) :=
  if i &&& 0xfff80000 = 0 ∨ i &&& 0xfff80000 = 0xfff80000 then
    some (i &&& 0x7ffff, (i &&& 0x80000) >>> 19)
  else
    none

/-- Embedding of SM50Encoder::set_src_imm_f20: asserts that the low 12
bits of the 32-bit float pattern are zero, then packs 19 mantissa bits
and a separate sign bit. -/
def set_src_imm_f20 (f : ℕ) : Option (ℕ × ℕ) :=
  if f &&& 0x00000fff = 0 then
    some ((f >>> 12) &&& 0x7ffff, f >>> 31)
  else
    none

/-! ## SM50 shader assembler (encode_sm50_shader)

The per-opcode encoders are dispatched through the SM50Op trait; for the
assembler-level claims an instruction is abstracted to the two 32-bit
instruction words its encoder produces plus its packed 21-bit scheduling
descriptor (set_instr_deps writes only bits 0..21 of e.sched).  The
group/padding/label structure below is embedded directly from
encode_sm50_shader and encode_instr. -/

/-- An already-encoded instruction: the two 32-bit instruction words
produced by its per-opcode encoder and its 21-bit scheduling
descriptor. -/
structure SInstr where
  encLo : ℕ
  encHi : ℕ
  sched : ℕ
  deriving DecidableEq, Repr

/-- Embedding of Rust usize::next_multiple_of for a positive modulus:
the smallest multiple of k that is ≥ n. -/
def nextMultipleOf (n k : ℕ) : ℕ :=
  divRoundUp n k * k

/-- The two 32-bit words of one instruction slot: the slot's own
instruction if present, else the no-op filler (encode_instr's None
branch). -/
def slotWords (nop : SInstr) : Option SInstr → List ℕ
  | some i => [i.encLo % 2 ^ 32, i.encHi % 2 ^ 32]
  | none => [nop.encLo % 2 ^ 32, nop.encHi % 2 ^ 32]

/-- The 21-bit scheduling descriptor of one slot (no-op filler for empty
slots). -/
def slotSched (nop : SInstr) : Option SInstr → ℕ
  | some i => i.sched % 2 ^ 21
  | none => nop.sched % 2 ^ 21

/-- The 64-bit scheduling word of one group, as its two 32-bit halves:
encode_instr packs slot i's descriptor into bits 21*i..21*(i+1) of
sched_instr. -/
def schedWords (s0 s1 s2 : ℕ) : List ℕ :=
  [(s0 % 2 ^ 21 + s1 % 2 ^ 21 * 2 ^ 21 + s2 % 2 ^ 21 * 2 ^ 42) % 2 ^ 32,
    (s0 % 2 ^ 21 + s1 % 2 ^ 21 * 2 ^ 21 + s2 % 2 ^ 21 * 2 ^ 42) / 2 ^ 32]

/-- One group of 3 instruction slots as emitted by encode_sm50_shader:
[scheduling word][instr0][instr1][instr2], 8 32-bit words in total. -/
def group3 (nop : SInstr) (o0 o1 o2 : Option SInstr) : List ℕ :=
  schedWords (slotSched nop o0) (slotSched nop o1) (slotSched nop o2) ++
    slotWords nop o0 ++ slotWords nop o1 ++ slotWords nop o2

/-- Embedding of the per-block main loop of encode_sm50_shader: the
block's instructions are emitted in groups of 3, the unused slots of a
short final group filled with no-ops. -/
def encodeGroups (nop : SInstr) : List SInstr → List ℕ
  | [] => []
  | [a] => group3 nop (some a) none none
  | [a, b] => group3 nop (some a) (some b) none
  | a :: b :: c :: rest => group3 nop (some a) (some b) (some c) ++ encodeGroups nop rest

/-- Embedding of the main pass of encode_sm50_shader over the single
function's blocks (a block is abstracted to its instruction list). -/
def encodeFunc (nop : SInstr) (blocks : List (List SInstr)) : List ℕ :=
  blocks.flatMap (encodeGroups nop)

/-- The byte count a block contributes to the instruction-pointer
pre-pass of encode_sm50_shader:
num_instrs += (block_num_instrs + block_num_instrs / 3) * 8 with
block_num_instrs = b.instrs.len().next_multiple_of(3). -/
def blockBytes (n : ℕ) : ℕ :=
  (nextMultipleOf n 3 + nextMultipleOf n 3 / 3) * 8

/-- Embedding of the label pre-pass of encode_sm50_shader: the address
recorded for block i's label (labels.insert(b.label, num_instrs + 8)). -/
def labelAddr (blocks : List (List SInstr)) (i : ℕ) : ℕ :=
  (((blocks.take i).map fun b => blockBytes b.length).sum) + 8

/-- A shader handed to encode_shader: its list of functions, each a list
of blocks. -/
structure SShader where
  functions : List (List (List SInstr))

/-- Embedding of encode_sm50_shader's entry: the
assert!(s.functions.len() == 1) becomes none, and for a single-function
shader only that function's blocks are encoded. -/
def encode_sm50_shader (nop : SInstr) (s : SShader) : Option (List ℕ) :=
  match s.functions with
  | [f] => some (encodeFunc nop f)
  | _ => none

/-- Embedding of SM50Encoder::set_rel_offset: the branch-relative
displacement target_ip - ip - 8 is computed in 32-bit signed arithmetic
(the u32/i32 try_from conversions become the < 2^31 guard) and packed
into the 24-bit field at bits 20..44 of the instruction word in two's
complement. -/
def set_rel_offset (inst ip targetIp : ℕ) : Option ℕ :=
  if ip < 2 ^ 31 ∧ targetIp < 2 ^ 31 then
    some (setField inst 20 24 (((targetIp : ℤ) - (ip : ℤ) - 8) % 2 ^ 24).toNat)
  else
    none

/-! ## Blob serialization (KernelArg / InternalKernelArg)

Modelled from the spec: the mesa blob reader/writer collaborator is not
part of the excerpt.  Per the external-interface section the format is
sequential native-endian fields, and deserialization of a truncated or
corrupted blob must fail cleanly; the reader is therefore embedded as
Option-returning reads over a byte list (little-endian, matching the
native order of the supported targets). -/

/-- Modelled from the spec: blob_write_uint8. -/
def writeU8 (v : ℕ) : List ℕ :=
  [v % 256]

/-- Modelled from the spec: blob_write_uint16, low byte first. -/
def writeU16 (v : ℕ) : List ℕ :=
  [v % 256, v / 256 % 256]

/-- Modelled from the spec: blob_write_uint32, low byte first. -/
def writeU32 (v : ℕ) : List ℕ :=
  [v % 256, v / 256 % 256, v / 2 ^ 16 % 256, v / 2 ^ 24 % 256]

/-- Modelled from the spec: blob_read_uint8; fails cleanly on a
truncated blob. -/
def readU8 : List ℕ → Option (ℕ × List ℕ)
  | [] => none
  | b :: r => some (b, r)

/-- Modelled from the spec: blob_read_uint16. -/
def readU16 (l : List ℕ) : Option (ℕ × List ℕ) := do
  let (b0, l) ← readU8 l
  let (b1, l) ← readU8 l
  some (b0 + 256 * b1, l)

/-- Modelled from the spec: blob_read_uint32. -/
def readU32 (l : List ℕ) : Option (ℕ × List ℕ) := do
  let (b0, l) ← readU8 l
  let (b1, l) ← readU8 l
  let (b2, l) ← readU8 l
  let (b3, l) ← readU8 l
  some (b0 + 256 * b1 + 2 ^ 16 * b2 + 2 ^ 24 * b3, l)

/-- Modelled from the spec: reading an opaque run of n bytes; fails
cleanly when fewer than n bytes remain. -/
def readBytes (n : ℕ) (l : List ℕ) : Option (List ℕ × List ℕ) :=
  if n ≤ l.length then some (l.take n, l.drop n) else none

/-- Modelled from the spec: the SPIRVKernelArg argument descriptor is an
opaque per-entry payload serialized ahead of the fixed fields; it is
embedded as a length-prefixed byte string. -/
structure SPIRVKernelArg where
  payload : List ℕ
  deriving DecidableEq, Repr

/-- Modelled from the spec: SPIRVKernelArg::serialize. -/
def SPIRVKernelArg.serialize (a : SPIRVKernelArg) : List ℕ :=
  writeU16 a.payload.length ++ a.payload

/-- Modelled from the spec: SPIRVKernelArg::deserialize, Option-valued. -/
def SPIRVKernelArg.deserialize (l : List ℕ) : Option (SPIRVKernelArg × List ℕ) := do
  let (n, l) ← readU16 l
  let (p, l) ← readBytes n l
  some (⟨p⟩, l)

/-- Embedding of rusticl's KernelArgType (repr(u8), discriminants
0..7). -/
inductive KernelArgType where
  | Constant
  | Image
  | RWImage
  | Sampler
  | Texture
  | MemGlobal
  | MemConstant
  | MemLocal
  deriving DecidableEq, Repr

/-- The u8 discriminant written for a KernelArgType (arg.kind as u8). -/
def KernelArgType.toU8 : KernelArgType → ℕ
  | .Constant => 0
  | .Image => 1
  | .RWImage => 2
  | .Sampler => 3
  | .Texture => 4
  | .MemGlobal => 5
  | .MemConstant => 6
  | .MemLocal => 7

/-- The kind match of KernelArg::deserialize: tags 0..7 are recognized,
anything else returns None. -/
def kernelArgTypeOfU8 : ℕ → Option KernelArgType
  | 0 => some .Constant
  | 1 => some .Image
  | 2 => some .RWImage
  | 3 => some .Sampler
  | 4 => some .Texture
  | 5 => some .MemGlobal
  | 6 => some .MemConstant
  | 7 => some .MemLocal
  | _ => none

/-- Embedding of rusticl's KernelArg. -/
structure KernelArg where
  spirv : SPIRVKernelArg
  kind : KernelArgType
  size : ℕ
  offset : ℕ
  binding : ℕ
  dead : Bool
  deriving DecidableEq, Repr

/-- One entry of KernelArg::serialize: the spirv payload, three 16-bit
fields, the dead flag byte and the kind byte. -/
def KernelArg.serializeOne (a : KernelArg) : List ℕ :=
  a.spirv.serialize ++ writeU16 a.size ++ writeU16 a.offset ++
    writeU16 a.binding ++ writeU8 (if a.dead then 1 else 0) ++ writeU8 a.kind.toU8

/-- Embedding of KernelArg::serialize: 16-bit count then the entries. -/
def KernelArg.serialize (args : List KernelArg) : List ℕ :=
  writeU16 args.length ++ args.flatMap KernelArg.serializeOne

/-- One entry of KernelArg::deserialize. -/
def KernelArg.deserializeOne (l : List ℕ) : Option (KernelArg × List ℕ) := do
  let (spirv, l) ← SPIRVKernelArg.deserialize l
  let (size, l) ← readU16 l
  let (offset, l) ← readU16 l
  let (binding, l) ← readU16 l
  let (deadByte, l) ← readU8 l
  let (kindByte, l) ← readU8 l
  let kind ← kernelArgTypeOfU8 kindByte
  some (⟨spirv, kind, size, offset, binding, deadByte ≠ 0⟩, l)

/-- Reading a 16-bit count worth of entries (the for loop of
deserialize). -/
def readEntries {α : Type} (rd : List ℕ → Option (α × List ℕ)) :
    ℕ → List ℕ → Option (List α × List ℕ)
  | 0, l => some ([], l)
  | n + 1, l => do
    let (a, l) ← rd l
    let (rest, l) ← readEntries rd n l
    some (a :: rest, l)

/-- Embedding of KernelArg::deserialize. -/
def KernelArg.deserialize (l : List ℕ) : Option (List KernelArg × List ℕ) := do
  let (n, l) ← readU16 l
  readEntries KernelArg.deserializeOne n l

/-- Embedding of rusticl's InternalKernelArgType; InlineSampler carries
the (addressing mode, filter mode, normalized) descriptor. -/
inductive InternalKernelArgType where
  | ConstantBuffer
  | GlobalWorkOffsets
  | PrintfBuffer
  | InlineSampler (addrMode : ℕ) (filterMode : ℕ) (norm : Bool)
  | FormatArray
  | OrderArray
  | WorkDim
  | WorkGroupOffsets
  | NumWorkgroups
  deriving DecidableEq, Repr

/-- Embedding of rusticl's InternalKernelArg. -/
structure InternalKernelArg where
  kind : InternalKernelArgType
  size : ℕ
  offset : ℕ
  deriving DecidableEq, Repr

/-- One entry of InternalKernelArg::serialize: 16-bit size and offset,
the kind tag byte, and for kind 3 (inline sampler) the extra normalized
byte and two 32-bit mode fields. -/
def InternalKernelArg.serializeOne (a : InternalKernelArg) : List ℕ :=
  writeU16 a.size ++ writeU16 a.offset ++
    match a.kind with
    | .ConstantBuffer => writeU8 0
    | .GlobalWorkOffsets => writeU8 1
    | .PrintfBuffer => writeU8 2
    | .InlineSampler addrMode filterMode norm =>
      writeU8 3 ++ writeU8 (if norm then 1 else 0) ++ writeU32 addrMode ++ writeU32 filterMode
    | .FormatArray => writeU8 4
    | .OrderArray => writeU8 5
    | .WorkDim => writeU8 6
    | .WorkGroupOffsets => writeU8 7
    | .NumWorkgroups => writeU8 8

/-- Embedding of InternalKernelArg::serialize. -/
def InternalKernelArg.serialize (args : List InternalKernelArg) : List ℕ :=
  writeU16 args.length ++ args.flatMap InternalKernelArg.serializeOne

/-- The kind-tag match of InternalKernelArg::deserialize: tags 0..8 are
recognized (3 reading the sampler extras), anything else returns None. -/
def InternalKernelArg.readKind (size offset tag : ℕ) (l : List ℕ) :
    Option (InternalKernelArg × List ℕ) :=
  match tag with
  | 0 => some (⟨.ConstantBuffer, size, offset⟩, l)
  | 1 => some (⟨.GlobalWorkOffsets, size, offset⟩, l)
  | 2 => some (⟨.PrintfBuffer, size, offset⟩, l)
  | 3 => do
    let (normByte, l) ← readU8 l
    let (addrMode, l) ← readU32 l
    let (filterMode, l) ← readU32 l
    some (⟨.InlineSampler addrMode filterMode (normByte ≠ 0), size, offset⟩, l)
  | 4 => some (⟨.FormatArray, size, offset⟩, l)
  | 5 => some (⟨.OrderArray, size, offset⟩, l)
  | 6 => some (⟨.WorkDim, size, offset⟩, l)
  | 7 => some (⟨.WorkGroupOffsets, size, offset⟩, l)
  | 8 => some (⟨.NumWorkgroups, size, offset⟩, l)
  | _ => none

/-- One entry of InternalKernelArg::deserialize: 16-bit size, 16-bit
offset, then the kind tag byte. -/
def InternalKernelArg.deserializeOne (l : List ℕ) :
    Option (InternalKernelArg × List ℕ) := do
  let (size, l) ← readU16 l
  let (offset, l) ← readU16 l
  let (tag, l) ← readU8 l
  InternalKernelArg.readKind size offset tag l

/-- Embedding of InternalKernelArg::deserialize. -/
def InternalKernelArg.deserialize (l : List ℕ) :
    Option (List InternalKernelArg × List ℕ) := do
  let (n, l) ← readU16 l
  readEntries InternalKernelArg.deserializeOne n l

/-- The field-width side conditions of the round-trip claim: every
serialized 16-bit field actually fits 16 bits and the opaque payload is
made of bytes. -/
def KernelArg.wf (a : KernelArg) : Prop :=
  a.size < 2 ^ 16 ∧ a.offset < 2 ^ 16 ∧ a.binding < 2 ^ 16 ∧
    a.spirv.payload.length < 2 ^ 16 ∧ ∀ b ∈ a.spirv.payload, b < 256

instance (a : KernelArg) : Decidable a.wf := by
  unfold KernelArg.wf; infer_instance

/-- The 32-bit side condition on the inline-sampler extra fields. -/
def InternalKernelArgType.kindWf : InternalKernelArgType → Prop
  | .InlineSampler addrMode filterMode _ => addrMode < 2 ^ 32 ∧ filterMode < 2 ^ 32
  | _ => True

instance (k : InternalKernelArgType) : Decidable k.kindWf := by
  cases k <;> unfold InternalKernelArgType.kindWf <;> infer_instance

/-- The field-width side conditions for an internal argument. -/
def InternalKernelArg.wf (a : InternalKernelArg) : Prop :=
  a.size < 2 ^ 16 ∧ a.offset < 2 ^ 16 ∧ a.kind.kindWf

instance (a : InternalKernelArg) : Decidable a.wf := by
  unfold InternalKernelArg.wf; infer_instance

/-! ## Internal-argument lowering (lower_and_optimize_nir) and
KernelArg::assign_locations -/

/-- The facts about the lowered NIR that lower_and_optimize_nir consults
when appending internal arguments, abstracted from the NirShader
queries (reads_sysval, has_constant, has_printf, num_images,
num_textures) plus the device's address width. -/
structure KernelNirInfo where
  readsBaseGlobalInvocationId : Bool
  readsBaseWorkgroupId : Bool
  readsNumWorkgroups : Bool
  hasConstant : Bool
  hasPrintf : Bool
  numImages : ℕ
  numTextures : ℕ
  readsWorkDim : Bool
  addressBits : ℕ
  deriving DecidableEq, Repr

/-- Embedding of the internal-argument construction of
lower_and_optimize_nir: the inline-sampler slots are pushed first
(during the sampler location loop), then each conditional push in the
source's order, with the source's size expressions (size_of usize is
8 on the supported 64-bit hosts). -/
def lower_internal_args (inlineSamplers : List (ℕ × ℕ × Bool))
    (ni : KernelNirInfo) : List InternalKernelArg :=
  (inlineSamplers.map fun s => ⟨.InlineSampler s.1 s.2.1 s.2.2, 0, 0⟩) ++
    (if ni.readsBaseGlobalInvocationId then [⟨.GlobalWorkOffsets, 3 * 8, 0⟩] else []) ++
    (if ni.readsBaseWorkgroupId then [⟨.WorkGroupOffsets, 3 * 8, 0⟩] else []) ++
    (if ni.readsNumWorkgroups then [⟨.NumWorkgroups, 12, 0⟩] else []) ++
    (if ni.hasConstant then [⟨.ConstantBuffer, ni.addressBits / 8, 0⟩] else []) ++
    (if ni.hasPrintf then [⟨.PrintfBuffer, ni.addressBits / 8, 0⟩] else []) ++
    (if 0 < ni.numImages ∨ 0 < ni.numTextures then
      [⟨.FormatArray, 2 * (ni.numImages + ni.numTextures), 0⟩,
        ⟨.OrderArray, 2 * (ni.numImages + ni.numTextures), 0⟩]
    else []) ++
    (if ni.readsWorkDim then [⟨.WorkDim, 1, 0⟩] else [])

/-- Whether an internal argument kind is an inline sampler slot. -/
def InternalKernelArgType.isInlineSampler : InternalKernelArgType → Bool
  | .InlineSampler _ _ _ => true
  | _ => false

/-- A uniform/image NIR variable as consulted by
KernelArg::assign_locations: its location, its driver-assigned byte
offset (driver_location) and its binding slot. -/
structure NirVariable where
  location : ℕ
  driverLocation : ℕ
  binding : ℕ
  deriving DecidableEq, Repr

/-- Embedding of KernelArg::assign_locations: walk the variables; a
location below args.len() updates that user argument (offset, binding,
dead = false), anything else updates internal argument
location - args.len(); the source's .unwrap() on a missing internal
slot becomes none. -/
def assign_locations (args : List KernelArg) (iargs : List InternalKernelArg) :
    List NirVariable → Option (List KernelArg × List InternalKernelArg)
  | [] => some (args, iargs)
  | v :: vs =>
    if h : v.location < args.length then
      assign_locations
        (args.set v.location
          { args.get ⟨v.location, h⟩ with
            offset := v.driverLocation, binding := v.binding, dead := false })
        iargs vs
    else if h2 : v.location - args.length < iargs.length then
      assign_locations args
        (iargs.set (v.location - args.length)
          { iargs.get ⟨v.location - args.length, h2⟩ with offset := v.driverLocation })
        vs
    else
      none

/-! ## Kernel::suggest_local_size -/

/-- The first loop of Kernel::suggest_local_size: for each dimension,
block[i] = gcd(min(threads, dim_threads[i]), grid[i]), grid[i] /= gcd,
threads /= block[i].  Returns (block, remaining grid, remaining
threads); gcd is mesa_rust_util::math::gcd, i.e. the greatest common
divisor. -/
def suggestPhase1 (threads : ℕ) : List ℕ → List ℕ → List ℕ × List ℕ × ℕ
  | dt :: dts, g :: gs =>
    let t := min threads dt
    let d := Nat.gcd t g
    let r := suggestPhase1 (threads / d) dts gs
    (d :: r.1, g / d :: r.2.1, r.2.2)
  | _, _ => ([], [], threads)

/-- The second loop of Kernel::suggest_local_size: fold the first grid
dimension with grid[i] * total_threads < threads entirely into the
block (at most once, then break). -/
def suggestPhase2 (threads total : ℕ) : List ℕ → List ℕ → List ℕ × List ℕ
  | g :: gs, b :: bs =>
    if g * total < threads then (1 :: gs, b * g :: bs)
    else
      let r := suggestPhase2 threads total gs bs
      (g :: r.1, b :: r.2)
  | gs, bs => (gs, bs)

/-- Embedding of Kernel::suggest_local_size over the first work_dim
dimensions (grid and dimThreads are the length-work_dim views); returns
the final (grid, block) contents. -/
def suggest_local_size (maxThreads subgroups : ℕ)
    (dimThreads grid : List ℕ) : List ℕ × List ℕ :=
  let r := suggestPhase1 maxThreads dimThreads grid
  let total := r.1.prod
  if r.2.2 ≠ 1 ∧ total < subgroups then
    suggestPhase2 r.2.2 total r.2.1 r.1
  else
    (r.2.1, r.1)

/-! ## Grid tiling of Kernel::launch -/

/-- One sub-dispatch of the tiling loop of Kernel::launch: the
workgroup-id offsets written for the tile and the sub-grid passed to
launch_grid. -/
structure SubGrid where
  ox : ℕ
  oy : ℕ
  oz : ℕ
  gx : ℕ
  gy : ℕ
  gz : ℕ
  deriving DecidableEq, Repr

/-- The tile the launch loop builds for tile index (x, y, z):
this_offsets = [x*hw0, y*hw1, z*hw2] and
this_grid = min(hw_max_grid[i], grid[i] - hw_max_grid[i]*t). -/
def mkTile (g0 g1 g2 h0 h1 h2 x y z : ℕ) : SubGrid :=
  ⟨x * h0, y * h1, z * h2,
    min h0 (g0 - h0 * x), min h1 (g1 - h1 * y), min h2 (g2 - h2 * z)⟩

/-- Embedding of the triple dispatch loop of Kernel::launch, in loop
order (z outermost, x innermost): one list entry per launch_grid
call. -/
def launchTiles (g0 g1 g2 h0 h1 h2 : ℕ) : List SubGrid :=
  (List.range (divRoundUp g2 h2)).flatMap fun z =>
    (List.range (divRoundUp g1 h1)).flatMap fun y =>
      (List.range (divRoundUp g0 h0)).map fun x =>
        mkTile g0 g1 g2 h0 h1 h2 x y z

/-- Membership of a workgroup-id point in a tile. -/
def tileCovers (t : SubGrid) (p0 p1 p2 : ℕ) : Prop :=
  t.ox ≤ p0 ∧ p0 < t.ox + t.gx ∧ t.oy ≤ p1 ∧ p1 < t.oy + t.gy ∧
    t.oz ≤ p2 ∧ p2 < t.oz + t.gz

instance (t : SubGrid) (p0 p1 p2 : ℕ) : Decidable (tileCovers t p0 p1 p2) := by
  unfold tileCovers; infer_instance

/-! ## Launch-time argument marshalling (Kernel::launch, serialization
loop)

The loop is embedded on the 64-bit address path (null_ptr and pointer
offsets are 8 bytes).  GPU objects are opaque handles (naturals);
panics (unwrap of an unset argument value, the binding-table asserts,
the None-value assert) become none. -/

/-- Embedding of rusticl's KernelArgValue (resources, images and
samplers as opaque handles; an image value carries its channel data
type and channel order codes). -/
inductive KernelArgValue where
  | constant (bytes : List ℕ)
  | buffer (res : ℕ) (offset : ℕ)
  | image (res : ℕ) (dataType : ℕ) (order : ℕ)
  | localMem (size : ℕ)
  | sampler (id : ℕ)
  | noneVal
  deriving DecidableEq, Repr

/-- Rust Vec::resize(n, 0) on the byte buffer: truncate or zero-pad to
length n. -/
def listResize (l : List ℕ) (n : ℕ) : List ℕ :=
  l.take n ++ List.replicate (n - l.length) 0

/-- Modelled from the spec: mesa_rust_util::math::align, rounding v up
to the next multiple of the alignment a (a power of two at all call
sites). -/
def alignUp (v a : ℕ) : ℕ :=
  divRoundUp v a * a

/-- A little-endian 8-byte pointer-sized value (to_ne_bytes of a u64 on
the supported hosts). -/
def writeU64 (v : ℕ) : List ℕ :=
  [v % 256, v / 256 % 256, v / 2 ^ 16 % 256, v / 2 ^ 24 % 256,
    v / 2 ^ 32 % 256, v / 2 ^ 40 % 256, v / 2 ^ 48 % 256, v / 2 ^ 56 % 256]

/-- The mutable state of the marshalling loop of Kernel::launch. -/
structure LaunchState where
  input : List ℕ
  resourceInfo : List (ℕ × ℕ)
  iviews : List (ℕ × Bool)
  sviews : List ℕ
  samplers : List ℕ
  texFormats : List ℕ
  texOrders : List ℕ
  imgFormats : List ℕ
  imgOrders : List ℕ
  variableLocalSize : ℕ
  deriving DecidableEq, Repr

/-- Embedding of the add_global helper of Kernel::launch: record the
resource against the current write position, then append the
pointer-sized offset. -/
def addGlobal (s : LaunchState) (res offset : ℕ) : LaunchState :=
  { s with
    resourceInfo := s.resourceInfo ++ [(res, s.input.length)],
    input := s.input ++ writeU64 offset }

/-- Whether an argument kind takes part of the inline input buffer (the
source resizes the buffer to arg.offset for every kind except Image,
RWImage, Texture and Sampler). -/
def KernelArgType.isInline : KernelArgType → Bool
  | .Image => false
  | .RWImage => false
  | .Texture => false
  | .Sampler => false
  | _ => true

/-- Embedding of one iteration of the argument serialization loop of
Kernel::launch. -/
def marshalStep (s : LaunchState) (arg : KernelArg) (val : Option KernelArgValue) :
    Option LaunchState :=
  if arg.dead then some s
  else
    let s := if arg.kind.isInline then { s with input := listResize s.input arg.offset } else s
    match val with
    | none => none
    | some (.constant c) => some { s with input := s.input ++ c }
    | some (.buffer res offset) => some (addGlobal s res offset)
    | some (.image res dataType order) =>
      if arg.kind = .Image ∨ arg.kind = .RWImage then
        if arg.binding < s.imgFormats.length then none
        else
          some
            { s with
              iviews := s.iviews ++ [(res, arg.kind == .RWImage)],
              imgFormats := listResize s.imgFormats arg.binding ++ [dataType],
              imgOrders := listResize s.imgOrders arg.binding ++ [order] }
      else
        if arg.binding < s.texFormats.length then none
        else
          some
            { s with
              sviews := s.sviews ++ [res],
              texFormats := listResize s.texFormats arg.binding ++ [dataType],
              texOrders := listResize s.texOrders arg.binding ++ [order] }
    | some (.localMem size) =>
      let pot := min size 0x80
      let vls := alignUp s.variableLocalSize pot.nextPowerOfTwo
      some { s with input := s.input ++ writeU64 vls, variableLocalSize := vls + size }
    | some (.sampler id) => some { s with samplers := s.samplers ++ [id] }
    | some .noneVal =>
      if arg.kind = .MemGlobal ∨ arg.kind = .MemConstant then
        some { s with input := s.input ++ List.replicate 8 0 }
      else none

/-- The whole serialization loop over the (argument, bound value)
pairs. -/
def marshalArgs (s : LaunchState) :
    List (KernelArg × Option KernelArgValue) → Option LaunchState
  | [] => some s
  | (a, v) :: rest =>
    match marshalStep s a v with
    | some s2 => marshalArgs s2 rest
    | none => none

/-- The number of input-buffer bytes one live inline argument appends
after the resize to its offset (0 for values that write no inline
bytes). -/
def inlineLen : Option KernelArgValue → ℕ
  | some (.constant c) => c.length
  | some (.buffer _ _) => 8
  | some (.localMem _) => 8
  | some .noneVal => 8
  | _ => 0

/-- Whether a bound value populates only the view/sampler lists and
never the inline input buffer (the legal values for the non-inline
argument kinds Image, RWImage, Texture, Sampler). -/
def isViewValue : Option KernelArgValue → Bool
  | some (.image _ _ _) => true
  | some (.sampler _) => true
  | _ => false

/-- The layout discipline of the computed offsets: walking the pairs,
every live inline argument's offset lies at or beyond the write cursor
left by the previous live inline argument (n is the incoming cursor),
and every live non-inline argument is bound to a view/sampler value. -/
def layoutChain (n : ℕ) : List (KernelArg × Option KernelArgValue) → Prop
  | [] => True
  | (a, v) :: rest =>
    if ¬a.dead ∧ a.kind.isInline then
      n ≤ a.offset ∧ layoutChain (a.offset + inlineLen v) rest
    else if ¬a.dead then
      isViewValue v = true ∧ layoutChain n rest
    else
      layoutChain n rest

instance : ∀ (n : ℕ) (l : List (KernelArg × Option KernelArgValue)),
    Decidable (layoutChain n l)
  | _, [] => .isTrue trivial
  | n, (a, v) :: rest => by
    unfold layoutChain
    have h1 := instDecidableLayoutChain (a.offset + inlineLen v) rest
    have h2 := instDecidableLayoutChain n rest
    split
    · infer_instance
    · split <;> infer_instance

/-! ## OpIAdd2 legalization and encoding (SM50) -/

/-- The source-operand reference forms relevant to ALU legalization. -/
inductive SrcRef where
  | zero
  | reg (idx : ℕ)
  | imm32 (imm : ℕ)
  | cbuf (buf : ℕ) (offset : ℕ)
  deriving DecidableEq, Repr

/-- A source operand: its reference plus the integer-negate modifier
bit (the only modifier OpIAdd2's encoder consults). -/
structure Src where
  srcRef : SrcRef
  ineg : Bool
  deriving DecidableEq, Repr

/-- Embedding of Src::is_reg_or_zero (sm50.rs): SrcRef::Zero or
SrcRef::Reg. -/
def Src.isRegOrZero (s : Src) : Bool :=
  match s.srcRef with
  | .zero => true
  | .reg _ => true
  | _ => false

/-- Whether a 32-bit immediate survives the set_src_imm_i20 assert:
bits 19..31 all clear or all set. -/
def i20Representable (i : ℕ) : Bool :=
  i &&& 0xfff80000 = 0 ∨ i &&& 0xfff80000 = 0xfff80000

/-- Modelled from the spec: Src::as_imm_not_i20 (nak ir, outside the
excerpt) yields the 32-bit immediate when the source is an immediate
that overflows the signed 20-bit inline field, and nothing otherwise. -/
def Src.asImmNotI20 (s : Src) : Option ℕ :=
  match s.srcRef with
  | .imm32 i => if i20Representable i then none else some i
  | _ => none

/-- Embedding of nak's OpIAdd2 (dst and carry operands reduced to what
its legalize/encode consult: a GPR index and the carry flags). -/
structure OpIAdd2 where
  dst : ℕ
  src0 : Src
  src1 : Src
  carryIn : Bool
  carryOut : Bool
  deriving DecidableEq, Repr

/-- Modelled from the spec: swap_srcs_if_not_reg (nak legalize, outside
the excerpt): for a commutative operation, if the second operand is a
register/zero and the first is not, swap them. -/
def swapSrcsIfNotReg (s0 s1 : Src) : Src × Src :=
  if ¬s0.isRegOrZero ∧ s1.isRegOrZero then (s1, s0) else (s0, s1)

/-- Modelled from the spec: copy_alu_src_if_not_reg (nak legalize,
outside the excerpt): when the operand is not a register, materialize
it into a freshly allocated register via an explicit move; the emitted
copies are returned as (destination register, copied source) pairs. -/
def copyAluSrcIfNotReg (nextReg : ℕ) (s : Src) : List (ℕ × Src) × Src :=
  if s.isRegOrZero then ([], s)
  else ([(nextReg, s)], ⟨.reg nextReg, false⟩)

/-- Embedding of OpIAdd2::legalize: swap the sources if needed, then
force src0 into a register; src1 is left alone. -/
def OpIAdd2.legalize (nextReg : ℕ) (op : OpIAdd2) : List (ℕ × Src) × OpIAdd2 :=
  let p := swapSrcsIfNotReg op.src0 op.src1
  let c := copyAluSrcIfNotReg nextReg p.1
  (c.1, { op with src0 := c.2, src1 := p.2 })

/-- Embedding of SM50Encoder::set_reg_src_ref for an 8-bit register
field (SrcRef::Zero encodes as register 0). -/
def setRegSrcRef (w lo : ℕ) (r : SrcRef) : Option ℕ :=
  match r with
  | .zero => some (setField w lo 8 0)
  | .reg idx => some (setField w lo 8 idx)
  | _ => none

/-- Embedding of OpIAdd2::encode on the 64-bit instruction word: the
immediate-overflow arm selects opcode 0x1c00 with a full 32-bit
immediate at bits 20..52; otherwise the register / short-immediate /
constant-buffer arms select 0x5c10 / 0x3810 / 0x4c10. -/
def OpIAdd2.encode (op : OpIAdd2) : Option ℕ :=
  match op.src1.asImmNotI20 with
  | some imm32 => do
    let w := setField 0 48 16 0x1c00
    let w := setField w 0 8 op.dst
    let w ← setRegSrcRef w 8 op.src0.srcRef
    let w := setField w 56 1 (if op.src0.ineg then 1 else 0)
    let w := setField w 20 32 imm32
    let w := setField w 53 1 (if op.carryIn then 1 else 0)
    some (setField w 52 1 (if op.carryOut then 1 else 0))
  | none => do
    let w0 ←
      match op.src1.srcRef with
      | .zero => do
        let w := setField 0 48 16 0x5c10
        let w ← setRegSrcRef w 20 op.src1.srcRef
        some (setField w 48 1 (if op.src1.ineg then 1 else 0))
      | .reg _ => do
        let w := setField 0 48 16 0x5c10
        let w ← setRegSrcRef w 20 op.src1.srcRef
        some (setField w 48 1 (if op.src1.ineg then 1 else 0))
      | .imm32 i => do
        let fs ← set_src_imm_i20 i
        some (setField (setField (setField 0 48 16 0x3810) 20 19 fs.1) 56 1 fs.2)
      | .cbuf buf offset =>
        if offset % 4 = 0 then
          some (setField (setField (setField (setField 0 48 16 0x4c10) 20 14 (offset / 4)) 34 5 buf)
            48 1 (if op.src1.ineg then 1 else 0))
        else none
    let w := setField w0 0 8 op.dst
    let w ← setRegSrcRef w 8 op.src0.srcRef
    let w := setField w 49 1 (if op.src0.ineg then 1 else 0)
    let w := setField w 43 1 (if op.carryIn then 1 else 0)
    some (setField w 47 1 (if op.carryOut then 1 else 0))

/-! ## Arithmetic bridge lemmas for the bit operations -/

theorem land_mask_eq_mod (n k : ℕ) : n &&& (2 ^ k - 1) = n % 2 ^ k :=
  Nat.and_pow_two_sub_one_eq_mod n k

theorem land_himask (n : ℕ) : n &&& 0xfff80000 = n / 2 ^ 19 % 2 ^ 13 * 2 ^ 19 := by
  apply Nat.eq_of_testBit_eq
  intro j
  have h1 : (0xfff80000 : ℕ) = 2 ^ 19 * (2 ^ 13 - 1) := by norm_num
  have h2 : n / 2 ^ 19 % 2 ^ 13 * 2 ^ 19 = 2 ^ 19 * (n / 2 ^ 19 % 2 ^ 13) := by ring
  rw [Nat.testBit_and, h1, h2, Nat.testBit_mul_pow_two, Nat.testBit_mul_pow_two,
    Nat.testBit_two_pow_sub_one, Nat.testBit_mod_two_pow, ← Nat.shiftRight_eq_div_pow,
    Nat.testBit_shiftRight]
  by_cases hj : 19 ≤ j
  · have hj2 : 19 + (j - 19) = j := by omega
    rw [hj2]
    simp [hj]
    rw [Bool.and_comm]
  · simp [hj, ge_iff_le]

theorem land_bit19_shift (n : ℕ) : (n &&& 0x80000) >>> 19 = n / 2 ^ 19 % 2 := by
  have h : (0x80000 : ℕ) = 2 ^ 19 := by norm_num
  rw [h, Nat.and_two_pow, Nat.shiftRight_eq_div_pow,
    Nat.mul_div_cancel _ (Nat.pos_pow_of_pos 19 (by norm_num)),
    Nat.testBit_to_div_mod]
  rcases Nat.mod_two_eq_zero_or_one (n / 2 ^ 19) with h2 | h2 <;>
    norm_num at h2 ⊢ <;> simp [h2]

theorem getField_setField (w lo len v : ℕ) :
    getField (setField w lo len v) lo len = v % 2 ^ len := by
  unfold getField setField
  have hlo : 0 < 2 ^ lo := Nat.pos_pow_of_pos lo (by norm_num)
  have hlen : 0 < 2 ^ len := Nat.pos_pow_of_pos len (by norm_num)
  have ha : w % 2 ^ lo < 2 ^ lo := Nat.mod_lt _ hlo
  have hb : v % 2 ^ len < 2 ^ len := Nat.mod_lt _ hlen
  have hrw : w % 2 ^ lo + v % 2 ^ len * 2 ^ lo + w / 2 ^ (lo + len) * 2 ^ (lo + len)
      = w % 2 ^ lo + 2 ^ lo * (v % 2 ^ len + 2 ^ len * (w / 2 ^ (lo + len))) := by
    rw [pow_add]; ring
  rw [hrw, Nat.add_mul_div_left _ _ hlo, Nat.div_eq_of_lt ha, Nat.zero_add,
    Nat.add_mul_mod_self_left, Nat.mod_eq_of_lt hb]

/-! ## C9: lossless 20-bit immediate packing -/

/-- C9: for every 32-bit value accepted by set_src_imm_i20 or
set_src_imm_f20 the packed 19-bit field plus the separate sign bit
reproduce the original value exactly, and a value is rejected by the
assertion (none) precisely when no such lossless field/sign-bit pair
exists. -/
theorem claim_C9 : ∀ i < 2 ^ 32,
    ((∀ f s, set_src_imm_i20 i = some (f, s) →
        f < 2 ^ 19 ∧ s ≤ 1 ∧ f + s * 0xfff80000 = i) ∧
      (set_src_imm_i20 i = none ↔
        ¬∃ f s, f < 2 ^ 19 ∧ s ≤ 1 ∧ f + s * 0xfff80000 = i)) ∧
    ((∀ f s, set_src_imm_f20 i = some (f, s) →
        f < 2 ^ 19 ∧ s ≤ 1 ∧ f * 2 ^ 12 + s * 2 ^ 31 = i) ∧
      (set_src_imm_f20 i = none ↔
        ¬∃ f s, f < 2 ^ 19 ∧ s ≤ 1 ∧ f * 2 ^ 12 + s * 2 ^ 31 = i)) := by
  intro i hi
  have hm19 : i &&& 0x7ffff = i % 2 ^ 19 := by
    have := land_mask_eq_mod i 19; norm_num at this ⊢; exact this
  have hm12 : i &&& 0xfff = i % 2 ^ 12 := by
    have := land_mask_eq_mod i 12; norm_num at this ⊢; exact this
  have hhi := land_himask i
  have hbit := land_bit19_shift i
  have hdm19 := Nat.div_add_mod i (2 ^ 19)
  have hdm12 := Nat.div_add_mod i (2 ^ 12)
  have hmod19 : i % 2 ^ 19 < 2 ^ 19 := Nat.mod_lt _ (by norm_num)
  have hmod12 : i % 2 ^ 12 < 2 ^ 12 := Nat.mod_lt _ (by norm_num)
  have hd13 : i / 2 ^ 19 < 2 ^ 13 := by omega
  have hd13m : i / 2 ^ 19 % 2 ^ 13 = i / 2 ^ 19 := Nat.mod_eq_of_lt hd13
  have hdm2 := Nat.div_add_mod (i / 2 ^ 19) 2
  have hsr12 : i >>> 12 = i / 2 ^ 12 := Nat.shiftRight_eq_div_pow i 12
  have hsr31 : i >>> 31 = i / 2 ^ 31 := Nat.shiftRight_eq_div_pow i 31
  have hm1912 : (i / 2 ^ 12) &&& 0x7ffff = i / 2 ^ 12 % 2 ^ 19 := by
    have := land_mask_eq_mod (i / 2 ^ 12) 19; norm_num at this ⊢; exact this
  have hdd : i / 2 ^ 12 / 2 ^ 19 = i / 2 ^ 31 := by
    rw [Nat.div_div_eq_div_mul]; norm_num
  have hdm1219 := Nat.div_add_mod (i / 2 ^ 12) (2 ^ 19)
  have hmod1219 : i / 2 ^ 12 % 2 ^ 19 < 2 ^ 19 := Nat.mod_lt _ (by norm_num)
  have hd31 : i / 2 ^ 31 ≤ 1 := by omega
  constructor
  · unfold set_src_imm_i20
    rw [hhi, hd13m]
    split_ifs with h
    · refine ⟨fun f s hfs => ?_,
        ⟨fun h2 => h2.elim,
          fun h2 => (h2 ⟨i % 2 ^ 19, i / 2 ^ 19 % 2, hmod19, by omega, by omega⟩).elim⟩⟩
      rw [hm19, hbit] at hfs
      simp only [Option.some.injEq, Prod.mk.injEq] at hfs
      obtain ⟨hf, hs⟩ := hfs
      subst hf; subst hs
      exact ⟨hmod19, by omega, by omega⟩
    · refine ⟨fun f s hfs => hfs.elim, ⟨fun _ => ?_, fun _ => rfl⟩⟩
      rintro ⟨f, s, hf, hs, heq⟩
      omega
  · unfold set_src_imm_f20
    rw [hm12]
    split_ifs with h
    · refine ⟨fun f s hfs => ?_,
        ⟨fun h2 => h2.elim,
          fun h2 => (h2 ⟨i / 2 ^ 12 % 2 ^ 19, i / 2 ^ 31, hmod1219, hd31, by omega⟩).elim⟩⟩
      rw [hsr12, hsr31, hm1912] at hfs
      simp only [Option.some.injEq, Prod.mk.injEq] at hfs
      obtain ⟨hf, hs⟩ := hfs
      subst hf; subst hs
      exact ⟨hmod1219, hd31, by omega⟩
    · refine ⟨fun f s hfs => hfs.elim, ⟨fun _ => ?_, fun _ => rfl⟩⟩
      rintro ⟨f, s, hf, hs, heq⟩
      omega

/-- Witness for C9 at the concrete accepted immediate 0x7ffff and the
rejected immediate 0x123456. -/
theorem claim_C9_witness :
    (0x7ffff : ℕ) < 2 ^ 32 ∧
      ((0x7ffff : ℕ) &&& 0x7ffff) + (((0x7ffff : ℕ) &&& 0x80000) >>> 19) * 0xfff80000 =
        0x7ffff := by
  have h := (claim_C9 0x7ffff (by norm_num)).1.1 (0x7ffff &&& 0x7ffff)
    ((0x7ffff &&& 0x80000) >>> 19) (by decide)
  exact ⟨by norm_num, h.2.2⟩

/-! ## C6: branch-relative offsets -/

/-- C6: for a branch at instruction-pointer ip whose target label
resolves through the precomputed address table, the 24-bit field
written at bits 20..44 holds, in two's complement, exactly
target_ip - ip - 8 — for forward and backward targets alike (whenever
the displacement fits the 24-bit field). -/
theorem claim_C6 : ∀ (blocks : List (List SInstr)) (i inst ip : ℕ),
    ip < 2 ^ 31 → labelAddr blocks i < 2 ^ 31 →
    -(2 ^ 23) ≤ (labelAddr blocks i : ℤ) - ip - 8 →
    (labelAddr blocks i : ℤ) - ip - 8 < 2 ^ 23 →
    ∃ w, set_rel_offset inst ip (labelAddr blocks i) = some w ∧
      signExtend 24 (getField w 20 24) = (labelAddr blocks i : ℤ) - ip - 8 := by
  intro blocks i inst ip h1 h2 h3 h4
  unfold set_rel_offset
  rw [if_pos ⟨h1, h2⟩]
  refine ⟨_, rfl, ?_⟩
  rw [getField_setField]
  have h5 : (((((labelAddr blocks i : ℤ) - ip - 8) % 2 ^ 24).toNat : ℤ))
      = ((labelAddr blocks i : ℤ) - ip - 8) % 2 ^ 24 :=
    Int.toNat_of_nonneg (Int.emod_nonneg _ (by norm_num))
  have h6 : ((labelAddr blocks i : ℤ) - ip - 8) % 2 ^ 24 < 2 ^ 24 :=
    Int.emod_lt_of_pos _ (by norm_num)
  have h7 : (((labelAddr blocks i : ℤ) - ip - 8) % 2 ^ 24).toNat < 2 ^ 24 := by omega
  rw [Nat.mod_eq_of_lt h7]
  unfold signExtend
  split_ifs with hcase
  · norm_num at hcase ⊢
    omega
  · norm_num at hcase ⊢
    omega

/-- Witness for C6: a two-block function with blocks of 2 and 4
instructions; the branch sits at ip 8 (block 0's first slot) and
targets block 1's label. -/
theorem claim_C6_witness :
    (8 : ℕ) < 2 ^ 31 ∧ labelAddr [[⟨0, 0, 0⟩, ⟨0, 0, 0⟩],
        [⟨0, 0, 0⟩, ⟨0, 0, 0⟩, ⟨0, 0, 0⟩, ⟨0, 0, 0⟩]] 1 < 2 ^ 31 ∧
      ∃ w, set_rel_offset 0 8 (labelAddr [[⟨0, 0, 0⟩, ⟨0, 0, 0⟩],
          [⟨0, 0, 0⟩, ⟨0, 0, 0⟩, ⟨0, 0, 0⟩, ⟨0, 0, 0⟩]] 1) = some w ∧
        signExtend 24 (getField w 20 24) =
          (labelAddr [[⟨0, 0, 0⟩, ⟨0, 0, 0⟩],
            [⟨0, 0, 0⟩, ⟨0, 0, 0⟩, ⟨0, 0, 0⟩, ⟨0, 0, 0⟩]] 1 : ℤ) - 8 - 8 := by
  refine ⟨by norm_num, by decide, ?_⟩
  exact claim_C6 [[⟨0, 0, 0⟩, ⟨0, 0, 0⟩],
    [⟨0, 0, 0⟩, ⟨0, 0, 0⟩, ⟨0, 0, 0⟩, ⟨0, 0, 0⟩]] 1 0 8
    (by norm_num) (by decide) (by decide) (by decide)

/-! ## C7: group structure, padding and label addresses -/

theorem slotWords_length (nop : SInstr) (o : Option SInstr) :
    (slotWords nop o).length = 2 := by
  cases o <;> rfl

theorem group3_length (nop : SInstr) (o0 o1 o2 : Option SInstr) :
    (group3 nop o0 o1 o2).length = 8 := by
  unfold group3 schedWords
  simp [slotWords_length]

theorem divRoundUp_succ3 (n : ℕ) : divRoundUp (n + 3) 3 = divRoundUp n 3 + 1 := by
  unfold divRoundUp
  omega

theorem encodeGroups_length (nop : SInstr) :
    ∀ l : List SInstr, (encodeGroups nop l).length = divRoundUp l.length 3 * 8
  | [] => by simp [encodeGroups, divRoundUp]
  | [a] => by simp [encodeGroups, group3_length, divRoundUp]
  | [a, b] => by simp [encodeGroups, group3_length, divRoundUp]
  | a :: b :: c :: rest => by
    have ih := encodeGroups_length nop rest
    simp only [encodeGroups, List.length_append, List.length_cons, ih, group3_length]
    rw [show rest.length + 1 + 1 + 1 = rest.length + 3 by omega, divRoundUp_succ3]
    ring

theorem encodeFunc_length (nop : SInstr) :
    ∀ blocks : List (List SInstr),
      (encodeFunc nop blocks).length = (blocks.map fun b => divRoundUp b.length 3 * 8).sum
  | [] => by simp [encodeFunc]
  | b :: rest => by
    have ih := encodeFunc_length nop rest
    simp only [encodeFunc, List.flatMap_cons, List.length_append, List.map_cons, List.sum_cons]
    rw [encodeGroups_length]
    simp only [encodeFunc] at ih
    omega

theorem blockBytes_eq (n : ℕ) : blockBytes n = 4 * (divRoundUp n 3 * 8) := by
  unfold blockBytes nextMultipleOf
  omega

theorem blockBytes_sum (l : List (List SInstr)) :
    (l.map fun b => blockBytes b.length).sum =
      4 * (l.map fun b => divRoundUp b.length 3 * 8).sum := by
  induction l with
  | nil => simp
  | cons b rest ih =>
    simp only [blockBytes_eq] at ih ⊢
    simp only [List.map_cons, List.sum_cons] at ih ⊢
    omega

/-- C7: every block with n instructions is emitted as ceil(n/3) groups
of one scheduling word plus three instruction words (8 32-bit words per
group, no-op padding in unused slots), the output length in 32-bit
words is the sum over blocks of ceil(n/3)*8, and every block's label
resolves to the block's starting byte address plus 8 — the first
instruction slot, skipping the group's scheduling word. -/
theorem claim_C7 : ∀ (nop : SInstr) (blocks : List (List SInstr)),
    (∀ b ∈ blocks, (encodeGroups nop b).length = divRoundUp b.length 3 * 8) ∧
    (encodeFunc nop blocks).length = (blocks.map fun b => divRoundUp b.length 3 * 8).sum ∧
    ∀ i, labelAddr blocks i = 4 * (encodeFunc nop (blocks.take i)).length + 8 := by
  intro nop blocks
  refine ⟨fun b _ => encodeGroups_length nop b, encodeFunc_length nop blocks, fun i => ?_⟩
  unfold labelAddr
  rw [encodeFunc_length, blockBytes_sum]

/-- Witness for C7 at the two-block function of the spec's concrete
branch-encoding scenario (blocks of 2 and 4 instructions). -/
theorem claim_C7_witness :
    (encodeFunc ⟨0, 0, 0⟩ [[⟨0, 0, 0⟩, ⟨0, 0, 0⟩],
        [⟨0, 0, 0⟩, ⟨0, 0, 0⟩, ⟨0, 0, 0⟩, ⟨0, 0, 0⟩]]).length =
      (([[⟨0, 0, 0⟩, ⟨0, 0, 0⟩],
        [⟨0, 0, 0⟩, ⟨0, 0, 0⟩, ⟨0, 0, 0⟩, ⟨0, 0, 0⟩]] : List (List SInstr)).map
          fun b => divRoundUp b.length 3 * 8).sum := by
  exact (claim_C7 ⟨0, 0, 0⟩ [[⟨0, 0, 0⟩, ⟨0, 0, 0⟩],
    [⟨0, 0, 0⟩, ⟨0, 0, 0⟩, ⟨0, 0, 0⟩, ⟨0, 0, 0⟩]]).2.1

/-! ## C10: encode_shader is defined only for single-function shaders -/

/-- C10: encode_sm50_shader asserts the shader holds exactly one
function — any other function count panics before anything is encoded —
and for a single-function shader exactly that function's blocks are
encoded. -/
theorem claim_C10 : ∀ (nop : SInstr) (s : SShader),
    (s.functions.length ≠ 1 → encode_sm50_shader nop s = none) ∧
    ∀ f, s.functions = [f] → encode_sm50_shader nop s = some (encodeFunc nop f) := by
  intro nop s
  rcases s with ⟨fns⟩
  match fns with
  | [] => exact ⟨fun _ => rfl, fun f h => by simp at h⟩
  | [f] =>
    refine ⟨fun h => absurd rfl h, fun g h => ?_⟩
    simp only [List.cons.injEq, and_true] at h
    subst h
    rfl
  | a :: b :: rest => exact ⟨fun _ => rfl, fun f h => by simp at h⟩

/-- Witness for C10: the empty shader is rejected and a one-function
shader is encoded. -/
theorem claim_C10_witness :
    encode_sm50_shader ⟨0, 0, 0⟩ ⟨[]⟩ = none ∧
      encode_sm50_shader ⟨0, 0, 0⟩ ⟨[[[⟨1, 2, 3⟩]]]⟩ =
        some (encodeFunc ⟨0, 0, 0⟩ [[⟨1, 2, 3⟩]]) := by
  exact ⟨(claim_C10 ⟨0, 0, 0⟩ ⟨[]⟩).1 (by decide),
    (claim_C10 ⟨0, 0, 0⟩ ⟨[[[⟨1, 2, 3⟩]]]⟩).2 [[⟨1, 2, 3⟩]] rfl⟩

/-! ## C1: grid tiling of Kernel::launch -/

theorem divRoundUp_spec (g h : ℕ) (hh : 1 ≤ h) :
    g ≤ divRoundUp g h * h ∧ divRoundUp g h * h < g + h := by
  unfold divRoundUp
  rcases Nat.eq_zero_or_pos g with hg | hg
  · subst hg
    have h0 : (0 + h - 1) / h = 0 := Nat.div_eq_of_lt (by omega)
    rw [h0]
    omega
  · have hg1 : g + h - 1 = g - 1 + h := by omega
    rw [hg1, Nat.add_div_right _ hh, Nat.succ_mul]
    have hdm := Nat.div_add_mod (g - 1) h
    have hr : (g - 1) % h < h := Nat.mod_lt _ hh
    have hc : (g - 1) / h * h = h * ((g - 1) / h) := Nat.mul_comm _ _
    omega

theorem div_lt_divRoundUp (g h p : ℕ) (hh : 1 ≤ h) (hp : p < g) :
    p / h < divRoundUp g h := by
  have hs := divRoundUp_spec g h hh
  have hdm := Nat.div_add_mod p h
  have hc : p / h * h = h * (p / h) := Nat.mul_comm _ _
  have h1 : p / h * h < divRoundUp g h * h := by omega
  exact lt_of_mul_lt_mul_right h1 (Nat.zero_le h)

theorem tile_dim_exists (g h p : ℕ) (hh : 1 ≤ h) (hp : p < g) :
    p / h * h ≤ p ∧ p < p / h * h + min h (g - h * (p / h)) := by
  have hdm := Nat.div_add_mod p h
  have hr : p % h < h := Nat.mod_lt _ hh
  have hc : p / h * h = h * (p / h) := Nat.mul_comm _ _
  omega

theorem tile_dim_unique (g h p x : ℕ) (hh : 1 ≤ h)
    (hlo : x * h ≤ p) (hhi : p < x * h + min h (g - h * x)) : x = p / h := by
  have hdm := Nat.div_add_mod p h
  have hr : p % h < h := Nat.mod_lt _ hh
  have hc : x * h = h * x := Nat.mul_comm _ _
  have hc2 : p / h * h = h * (p / h) := Nat.mul_comm _ _
  have hq : h * x ≤ p ∧ p < h * x + h := by omega
  have := Nat.div_eq_of_lt_le (by omega : x * h ≤ p)
    (by rw [Nat.succ_mul]; omega : p < (x + 1) * h)
  omega

theorem tile_dim_bound (g h p x : ℕ) (hh : 1 ≤ h) (hx : x < divRoundUp g h)
    (hlo : x * h ≤ p) (hhi : p < x * h + min h (g - h * x)) : p < g := by
  have hs := divRoundUp_spec g h hh
  have hc : x * h = h * x := Nat.mul_comm _ _
  have hxle : x * h ≤ (divRoundUp g h - 1) * h :=
    Nat.mul_le_mul_right h (by omega)
  have hD : divRoundUp g h - 1 + 1 = divRoundUp g h := by omega
  have hsplit : (divRoundUp g h - 1) * h + h = divRoundUp g h * h := by
    calc (divRoundUp g h - 1) * h + h = (divRoundUp g h - 1 + 1) * h := by ring
      _ = divRoundUp g h * h := by rw [hD]
  omega

theorem launchTiles_mem (g0 g1 g2 h0 h1 h2 : ℕ) (t : SubGrid) :
    t ∈ launchTiles g0 g1 g2 h0 h1 h2 ↔
      ∃ x y z, x < divRoundUp g0 h0 ∧ y < divRoundUp g1 h1 ∧ z < divRoundUp g2 h2 ∧
        t = mkTile g0 g1 g2 h0 h1 h2 x y z := by
  unfold launchTiles
  simp only [List.mem_flatMap, List.mem_map, List.mem_range]
  constructor
  · rintro ⟨z, hz, y, hy, x, hx, rfl⟩
    exact ⟨x, y, z, hx, hy, hz, rfl⟩
  · rintro ⟨x, y, z, hx, hy, hz, rfl⟩
    exact ⟨z, hz, y, hy, x, hx, rfl⟩

theorem launchTiles_length (g0 g1 g2 h0 h1 h2 : ℕ) :
    (launchTiles g0 g1 g2 h0 h1 h2).length =
      divRoundUp g0 h0 * divRoundUp g1 h1 * divRoundUp g2 h2 := by
  unfold launchTiles
  simp [List.length_flatMap, Function.comp_def, mul_comm, mul_assoc, mul_left_comm]

/-- C1: with hw_max at least 1 in every dimension, the dispatch closure
issues exactly ceil(grid[i]/hw_max[i]) products of launch_grid calls
(divRoundUp being exactly that ceiling); the call for tile index
(x,y,z) carries workgroup-id offsets (x*hw0, y*hw1, z*hw2) and
sub-grid min(hw[i], grid[i] - hw[i]*t); and the sub-tiles partition the
grid box: every workgroup id below the requested grid is covered by
exactly one tile, and tiles never reach outside the box. -/
theorem claim_C1 : ∀ g0 g1 g2 h0 h1 h2 : ℕ, 1 ≤ h0 → 1 ≤ h1 → 1 ≤ h2 →
    ((launchTiles g0 g1 g2 h0 h1 h2).length =
      divRoundUp g0 h0 * divRoundUp g1 h1 * divRoundUp g2 h2) ∧
    (∀ g h : ℕ, 1 ≤ h → g ≤ divRoundUp g h * h ∧ divRoundUp g h * h < g + h) ∧
    (∀ t, t ∈ launchTiles g0 g1 g2 h0 h1 h2 ↔
      ∃ x y z, x < divRoundUp g0 h0 ∧ y < divRoundUp g1 h1 ∧ z < divRoundUp g2 h2 ∧
        t = mkTile g0 g1 g2 h0 h1 h2 x y z) ∧
    (∀ p0 p1 p2, p0 < g0 → p1 < g1 → p2 < g2 →
      ∃! w : ℕ × ℕ × ℕ,
        w.1 < divRoundUp g0 h0 ∧ w.2.1 < divRoundUp g1 h1 ∧ w.2.2 < divRoundUp g2 h2 ∧
          tileCovers (mkTile g0 g1 g2 h0 h1 h2 w.1 w.2.1 w.2.2) p0 p1 p2) ∧
    (∀ x y z, x < divRoundUp g0 h0 → y < divRoundUp g1 h1 → z < divRoundUp g2 h2 →
      ∀ p0 p1 p2, tileCovers (mkTile g0 g1 g2 h0 h1 h2 x y z) p0 p1 p2 →
        p0 < g0 ∧ p1 < g1 ∧ p2 < g2) := by
  intro g0 g1 g2 h0 h1 h2 hh0 hh1 hh2
  refine ⟨launchTiles_length g0 g1 g2 h0 h1 h2,
    fun g h hh => divRoundUp_spec g h hh,
    fun t => launchTiles_mem g0 g1 g2 h0 h1 h2 t,
    fun p0 p1 p2 hp0 hp1 hp2 => ?_,
    fun x y z hx hy hz p0 p1 p2 hcov => ?_⟩
  · refine ⟨⟨p0 / h0, p1 / h1, p2 / h2⟩,
      ⟨div_lt_divRoundUp g0 h0 p0 hh0 hp0, div_lt_divRoundUp g1 h1 p1 hh1 hp1,
        div_lt_divRoundUp g2 h2 p2 hh2 hp2, ?_⟩, ?_⟩
    · have e0 := tile_dim_exists g0 h0 p0 hh0 hp0
      have e1 := tile_dim_exists g1 h1 p1 hh1 hp1
      have e2 := tile_dim_exists g2 h2 p2 hh2 hp2
      exact ⟨e0.1, e0.2, e1.1, e1.2, e2.1, e2.2⟩
    · rintro ⟨x, y, z⟩ ⟨hx, hy, hz, hc⟩
      obtain ⟨c0l, c0h, c1l, c1h, c2l, c2h⟩ := hc
      have u0 := tile_dim_unique g0 h0 p0 x hh0 c0l c0h
      have u1 := tile_dim_unique g1 h1 p1 y hh1 c1l c1h
      have u2 := tile_dim_unique g2 h2 p2 z hh2 c2l c2h
      simp [u0, u1, u2]
  · obtain ⟨c0l, c0h, c1l, c1h, c2l, c2h⟩ := hcov
    exact ⟨tile_dim_bound g0 h0 p0 x hh0 hx c0l c0h,
      tile_dim_bound g1 h1 p1 y hh1 hy c1l c1h,
      tile_dim_bound g2 h2 p2 z hh2 hz c2l c2h⟩

/-- Witness for C1 at grid (5,3,1) with hardware maximum (2,2,1):
6 sub-dispatches. -/
theorem claim_C1_witness :
    (launchTiles 5 3 1 2 2 1).length = divRoundUp 5 2 * divRoundUp 3 2 * divRoundUp 1 1 ∧
      (launchTiles 5 3 1 2 2 1).length = 6 := by
  have h := (claim_C1 5 3 1 2 2 1 (by norm_num) (by norm_num) (by norm_num)).1
  exact ⟨h, by decide⟩

/-! ## C3: suggest_local_size bounds

The claim as frozen also asserts that the block volume divides the
device's max-threads-per-block; that conjunct fails on the code (see
the counterexample), while per-dimension divisibility of the requested
grid and the volume bound hold. -/

theorem suggestPhase1_inv :
    ∀ (dts gs : List ℕ) (threads : ℕ), 1 ≤ threads → (∀ d ∈ dts, 1 ≤ d) →
      dts.length = gs.length →
      1 ≤ (suggestPhase1 threads dts gs).2.2 ∧
        1 ≤ (suggestPhase1 threads dts gs).1.prod ∧
        (suggestPhase1 threads dts gs).1.prod * (suggestPhase1 threads dts gs).2.2 ≤ threads ∧
        List.Forall₂ (fun b g => b ∣ g) (suggestPhase1 threads dts gs).1 gs ∧
        List.Forall₂ (fun p g => p.1 * p.2 = g)
          ((suggestPhase1 threads dts gs).1.zip (suggestPhase1 threads dts gs).2.1) gs
  | [], [], threads, ht, _, _ => by
    simpa [suggestPhase1] using ht
  | [], g :: gs, _, _, _, hlen => by simp at hlen
  | dt :: dts, [], _, _, _, hlen => by simp at hlen
  | dt :: dts, g :: gs, threads, ht, hdts, hlen => by
    have hdt : 1 ≤ dt := hdts dt (by simp)
    have ht1 : 1 ≤ min threads dt := le_min ht hdt
    have hd : 1 ≤ Nat.gcd (min threads dt) g := Nat.gcd_pos_of_pos_left g ht1
    have hdle : Nat.gcd (min threads dt) g ≤ threads :=
      le_trans (le_trans (Nat.le_of_dvd ht1 (Nat.gcd_dvd_left _ _)) (min_le_left _ _)) le_rfl
    have hth2 : 1 ≤ threads / Nat.gcd (min threads dt) g :=
      (Nat.one_le_div_iff hd).mpr hdle
    have ih := suggestPhase1_inv dts gs (threads / Nat.gcd (min threads dt) g)
      hth2 (fun d hmem => hdts d (by simp [hmem])) (by simpa using hlen)
    simp only [suggestPhase1, List.prod_cons, List.zip_cons_cons]
    refine ⟨ih.1, ?_, ?_, ?_, ?_⟩
    · have := Nat.mul_le_mul hd ih.2.1
      simpa using this
    · calc Nat.gcd (min threads dt) g *
          (suggestPhase1 (threads / Nat.gcd (min threads dt) g) dts gs).1.prod *
          (suggestPhase1 (threads / Nat.gcd (min threads dt) g) dts gs).2.2
          = Nat.gcd (min threads dt) g *
            ((suggestPhase1 (threads / Nat.gcd (min threads dt) g) dts gs).1.prod *
              (suggestPhase1 (threads / Nat.gcd (min threads dt) g) dts gs).2.2) := by ring
        _ ≤ Nat.gcd (min threads dt) g * (threads / Nat.gcd (min threads dt) g) :=
            Nat.mul_le_mul_left _ ih.2.2.1
        _ ≤ threads := Nat.mul_div_le threads _
    · exact List.Forall₂.cons (Nat.gcd_dvd_right _ _) ih.2.2.2.1
    · exact List.Forall₂.cons (Nat.mul_div_cancel' (Nat.gcd_dvd_right _ _)) ih.2.2.2.2

theorem suggestPhase2_spec :
    ∀ (gs bs origs : List ℕ) (threads total : ℕ),
      List.Forall₂ (fun p g => p.1 * p.2 = g) (bs.zip gs) origs →
      List.Forall₂ (fun b g => b ∣ g) bs origs →
      ((suggestPhase2 threads total gs bs).2.prod = bs.prod ∨
        ∃ g ∈ gs, (suggestPhase2 threads total gs bs).2.prod = bs.prod * g ∧
          g * total < threads) ∧
      List.Forall₂ (fun b g => b ∣ g) (suggestPhase2 threads total gs bs).2 origs
  | [], bs, origs, threads, total, _, hdvd => by
    simp only [suggestPhase2]
    exact ⟨Or.inl trivial, hdvd⟩
  | g :: gs, [], origs, threads, total, hzip, hdvd => by
    simp only [suggestPhase2]
    exact ⟨Or.inl trivial, hdvd⟩
  | g :: gs, b :: bs, origs, threads, total, hzip, hdvd => by
    rcases origs with _ | ⟨o, origs⟩
    · exact absurd hzip (by simp)
    rw [List.zip_cons_cons] at hzip
    have hzh := List.forall₂_cons.mp hzip
    have hdh := List.forall₂_cons.mp hdvd
    simp only [suggestPhase2]
    split_ifs with hcond
    · refine ⟨Or.inr ⟨g, by simp, ?_, hcond⟩, ?_⟩
      · simp [List.prod_cons]; ring
      · refine List.Forall₂.cons ?_ hdh.2
        exact dvd_of_eq hzh.1
    · have ih := suggestPhase2_spec gs bs origs threads total hzh.2 hdh.2
      refine ⟨?_, List.Forall₂.cons hdh.1 ih.2⟩
      rcases ih.1 with hsame | ⟨g2, hg2, hprod, hlt⟩
      · left
        simp [List.prod_cons, hsame]
      · right
        refine ⟨g2, by simp [hg2], ?_, hlt⟩
        simp [List.prod_cons, hprod]
        ring

/-- C3 counterexample: device max-threads-per-block 10, per-dimension
max block size 4, preferred SIMD size 1, requested grid 4: the chosen
block is [4] (gcd(min(10,4),4) = 4), and its volume 4 does not divide
the max-threads-per-block 10 — refuting the divides-the-device-maximum
conjunct of the claim. -/
theorem claim_C3_counterexample :
    (suggest_local_size 10 1 [4] [4]).2 = [4] ∧
      ¬(suggest_local_size 10 1 [4] [4]).2.prod ∣ 10 := by
  decide

/-- C3 as amended: each block dimension divides the originally
requested grid size in that dimension and the block volume never
exceeds the device's max-threads-per-block; the volume does not in
general divide the max-threads-per-block (see the counterexample). -/
theorem claim_C3_amended :
    ∀ (maxThreads subgroups : ℕ) (dimThreads grid : List ℕ),
      1 ≤ maxThreads → (∀ d ∈ dimThreads, 1 ≤ d) → dimThreads.length = grid.length →
      List.Forall₂ (fun b g => b ∣ g)
        (suggest_local_size maxThreads subgroups dimThreads grid).2 grid ∧
      (suggest_local_size maxThreads subgroups dimThreads grid).2.prod ≤ maxThreads := by
  intro maxThreads subgroups dimThreads grid hmt hdts hlen
  have inv := suggestPhase1_inv dimThreads grid maxThreads hmt hdts hlen
  simp only [suggest_local_size]
  split_ifs with hcond
  · have p2 := suggestPhase2_spec (suggestPhase1 maxThreads dimThreads grid).2.1
      (suggestPhase1 maxThreads dimThreads grid).1 grid
      (suggestPhase1 maxThreads dimThreads grid).2.2
      (suggestPhase1 maxThreads dimThreads grid).1.prod
      inv.2.2.2.2 inv.2.2.2.1
    refine ⟨p2.2, ?_⟩
    rcases p2.1 with hsame | ⟨g, _, hprod, hlt⟩
    · rw [hsame]
      calc (suggestPhase1 maxThreads dimThreads grid).1.prod
          ≤ (suggestPhase1 maxThreads dimThreads grid).1.prod *
            (suggestPhase1 maxThreads dimThreads grid).2.2 :=
            Nat.le_mul_of_pos_right _ inv.1
        _ ≤ maxThreads := inv.2.2.1
    · rw [hprod]
      have h1 : (suggestPhase1 maxThreads dimThreads grid).1.prod * g =
          g * (suggestPhase1 maxThreads dimThreads grid).1.prod := Nat.mul_comm _ _
      have h2 : (suggestPhase1 maxThreads dimThreads grid).2.2 ≤
          (suggestPhase1 maxThreads dimThreads grid).1.prod *
            (suggestPhase1 maxThreads dimThreads grid).2.2 :=
        Nat.le_mul_of_pos_left _ inv.2.1
      have h3 := inv.2.2.1
      omega
  · refine ⟨inv.2.2.2.1, ?_⟩
    calc (suggestPhase1 maxThreads dimThreads grid).1.prod
        ≤ (suggestPhase1 maxThreads dimThreads grid).1.prod *
          (suggestPhase1 maxThreads dimThreads grid).2.2 :=
          Nat.le_mul_of_pos_right _ inv.1
      _ ≤ maxThreads := inv.2.2.1

/-- Witness for C3 at max-threads 16, SIMD 32, limits [16,16,16] and
grid [6,1,1]. -/
theorem claim_C3_witness :
    List.Forall₂ (fun b g => b ∣ g)
      (suggest_local_size 16 32 [16, 16, 16] [6, 1, 1]).2 [6, 1, 1] ∧
      (suggest_local_size 16 32 [16, 16, 16] [6, 1, 1]).2.prod ≤ 16 := by
  exact claim_C3_amended 16 32 [16, 16, 16] [6, 1, 1] (by norm_num)
    (by decide) (by decide)

/-! ## C2: serialization round-trip and clean failure -/

theorem readU8_writeU8 (v : ℕ) (r : List ℕ) (hv : v < 256) :
    readU8 (writeU8 v ++ r) = some (v, r) := by
  simp [readU8, writeU8, Nat.mod_eq_of_lt hv]

theorem readU16_writeU16 (v : ℕ) (r : List ℕ) (hv : v < 2 ^ 16) :
    readU16 (writeU16 v ++ r) = some (v, r) := by
  simp [readU16, writeU16, readU8]
  omega

theorem readU32_writeU32 (v : ℕ) (r : List ℕ) (hv : v < 2 ^ 32) :
    readU32 (writeU32 v ++ r) = some (v, r) := by
  simp [readU32, writeU32, readU8]
  omega

theorem readBytes_exact (p r : List ℕ) :
    readBytes p.length (p ++ r) = some (p, r) := by
  unfold readBytes
  rw [if_pos (by simp)]
  rw [List.take_left, List.drop_left]

theorem spirv_roundtrip (a : SPIRVKernelArg) (r : List ℕ)
    (h : a.payload.length < 2 ^ 16) :
    SPIRVKernelArg.deserialize (a.serialize ++ r) = some (a, r) := by
  unfold SPIRVKernelArg.serialize SPIRVKernelArg.deserialize
  rw [List.append_assoc, readU16_writeU16 _ _ h]
  simp [readBytes_exact]

theorem kernelArgTypeOfU8_toU8 (k : KernelArgType) :
    kernelArgTypeOfU8 k.toU8 = some k := by
  cases k <;> rfl

theorem kernelArgTypeOfU8_big (t : ℕ) (ht : 8 ≤ t) : kernelArgTypeOfU8 t = none := by
  match t with
  | 0 | 1 | 2 | 3 | 4 | 5 | 6 | 7 => omega
  | n + 8 => rfl

theorem toU8_lt (k : KernelArgType) : k.toU8 < 256 := by
  cases k <;> decide

theorem deserializeOne_roundtrip (a : KernelArg) (r : List ℕ) (hwf : a.wf) :
    KernelArg.deserializeOne (a.serializeOne ++ r) = some (a, r) := by
  obtain ⟨spv, kind, size, offset, binding, dead⟩ := a
  obtain ⟨h1, h2, h3, h4, _⟩ := hwf
  unfold KernelArg.serializeOne KernelArg.deserializeOne
  rw [List.append_assoc, List.append_assoc, List.append_assoc, List.append_assoc,
    List.append_assoc]
  rw [spirv_roundtrip spv _ h4]
  simp only [Option.bind_eq_bind, Option.some_bind]
  rw [readU16_writeU16 _ _ h1]
  simp only [Option.some_bind]
  rw [readU16_writeU16 _ _ h2]
  simp only [Option.some_bind]
  rw [readU16_writeU16 _ _ h3]
  simp only [Option.some_bind]
  rw [readU8_writeU8 _ _ (by split_ifs <;> norm_num)]
  simp only [Option.some_bind]
  rw [readU8_writeU8 _ _ (toU8_lt kind)]
  simp only [Option.some_bind]
  rw [kernelArgTypeOfU8_toU8]
  simp only [Option.some_bind]
  cases dead <;> simp

theorem readEntries_roundtrip (args : List KernelArg) (r : List ℕ)
    (hwf : ∀ a ∈ args, a.wf) :
    readEntries KernelArg.deserializeOne args.length
      (args.flatMap KernelArg.serializeOne ++ r) = some (args, r) := by
  induction args with
  | nil => simp [readEntries]
  | cons a rest ih =>
    simp only [List.flatMap_cons, List.length_cons, List.append_assoc]
    unfold readEntries
    rw [deserializeOne_roundtrip a _ (hwf a (by simp))]
    simp only [Option.bind_eq_bind, Option.some_bind]
    rw [ih (fun x hx => hwf x (by simp [hx]))]
    rfl

theorem kernelArg_roundtrip (args : List KernelArg) (r : List ℕ)
    (hlen : args.length < 2 ^ 16) (hwf : ∀ a ∈ args, a.wf) :
    KernelArg.deserialize (KernelArg.serialize args ++ r) = some (args, r) := by
  unfold KernelArg.serialize KernelArg.deserialize
  rw [List.append_assoc, readU16_writeU16 _ _ hlen]
  simp only [Option.bind_eq_bind, Option.some_bind]
  exact readEntries_roundtrip args r hwf

theorem iarg_deserializeOne_roundtrip (a : InternalKernelArg) (r : List ℕ)
    (hwf : a.wf) :
    InternalKernelArg.deserializeOne (a.serializeOne ++ r) = some (a, r) := by
  obtain ⟨kind, size, offset⟩ := a
  obtain ⟨h1, h2, h3⟩ := hwf
  dsimp only at h1 h2
  unfold InternalKernelArgType.kindWf at h3
  dsimp only at h3
  cases kind
  case InlineSampler addrMode filterMode norm =>
    simp only [InternalKernelArg.serializeOne, InternalKernelArg.deserializeOne,
      InternalKernelArg.readKind, writeU16, writeU8, writeU32, readU16, readU8,
      readU32, List.cons_append, List.nil_append, Option.bind_eq_bind,
      Option.some_bind]
    norm_num
    and_intros
    all_goals try omega
    all_goals cases norm <;> simp
  all_goals
    simp only [InternalKernelArg.serializeOne, InternalKernelArg.deserializeOne,
      InternalKernelArg.readKind, writeU16, writeU8, readU16, readU8,
      List.cons_append, List.nil_append, Option.bind_eq_bind, Option.some_bind]
  all_goals norm_num
  all_goals omega

theorem iarg_readEntries_roundtrip (args : List InternalKernelArg) (r : List ℕ)
    (hwf : ∀ a ∈ args, a.wf) :
    readEntries InternalKernelArg.deserializeOne args.length
      (args.flatMap InternalKernelArg.serializeOne ++ r) = some (args, r) := by
  induction args with
  | nil => simp [readEntries]
  | cons a rest ih =>
    simp only [List.flatMap_cons, List.length_cons, List.append_assoc]
    unfold readEntries
    rw [iarg_deserializeOne_roundtrip a _ (hwf a (by simp))]
    simp only [Option.bind_eq_bind, Option.some_bind]
    rw [ih (fun x hx => hwf x (by simp [hx]))]
    rfl

theorem iarg_roundtrip (args : List InternalKernelArg) (r : List ℕ)
    (hlen : args.length < 2 ^ 16) (hwf : ∀ a ∈ args, a.wf) :
    InternalKernelArg.deserialize (InternalKernelArg.serialize args ++ r) = some (args, r) := by
  unfold InternalKernelArg.serialize InternalKernelArg.deserialize
  rw [List.append_assoc, readU16_writeU16 _ _ hlen]
  simp only [Option.bind_eq_bind, Option.some_bind]
  exact iarg_readEntries_roundtrip args r hwf

/-- A reader is extension-monotone when a successful parse of a blob is
preserved, with the same value, by appending further bytes. -/
def ReaderExt {α : Type} (rd : List ℕ → Option (α × List ℕ)) : Prop :=
  ∀ p q v rest, rd p = some (v, rest) → rd (p ++ q) = some (v, rest ++ q)

theorem readerExt_bind {α β : Type} {rd : List ℕ → Option (α × List ℕ)}
    {f : α → List ℕ → Option (β × List ℕ)}
    (h1 : ReaderExt rd) (h2 : ∀ a, ReaderExt (f a)) :
    ReaderExt fun l => (rd l).bind fun p => f p.1 p.2 := by
  intro p q v rest h
  simp only at h ⊢
  cases hp : rd p with
  | none => rw [hp] at h; simp at h
  | some ar =>
    rw [hp] at h
    simp only [Option.some_bind] at h
    rw [h1 p q ar.1 ar.2 hp]
    simp only [Option.some_bind]
    exact h2 ar.1 ar.2 q v rest h

theorem readerExt_pure {β : Type} (g : List ℕ → Option (β × List ℕ))
    (b : β) (hg : g = fun l => some (b, l)) : ReaderExt g := by
  subst hg
  intro p q v rest h
  simp only [Option.some.injEq, Prod.mk.injEq] at h
  simp [h.1, h.2]

theorem readerExt_none {β : Type} (g : List ℕ → Option (β × List ℕ))
    (hg : g = fun _ => none) : ReaderExt g := by
  subst hg
  intro p q v rest h
  simp at h

theorem readU8_ext : ReaderExt readU8 := by
  intro p q v rest h
  cases p with
  | nil => simp [readU8] at h
  | cons b r =>
    simp only [readU8, Option.some.injEq, Prod.mk.injEq] at h
    simp [readU8, h.1, h.2]

theorem readU16_ext : ReaderExt readU16 := by
  intro p q v rest h
  unfold readU16 at h ⊢
  simp only [Option.bind_eq_bind, Option.bind_eq_some] at h
  obtain ⟨⟨b0, l0⟩, h0, ⟨⟨b1, l1⟩, hb1, h⟩⟩ := h
  rw [readU8_ext p q b0 l0 h0]
  simp only [Option.bind_eq_bind, Option.some_bind]
  rw [readU8_ext l0 q b1 l1 hb1]
  simp only [Option.some_bind, Option.some.injEq, Prod.mk.injEq] at h ⊢
  exact ⟨h.1, by rw [h.2]⟩

theorem readU32_ext : ReaderExt readU32 := by
  intro p q v rest h
  unfold readU32 at h ⊢
  simp only [Option.bind_eq_bind, Option.bind_eq_some] at h
  obtain ⟨⟨b0, l0⟩, h0, ⟨⟨b1, l1⟩, hb1, ⟨⟨b2, l2⟩, hb2, ⟨⟨b3, l3⟩, hb3, h⟩⟩⟩⟩ := h
  rw [readU8_ext p q b0 l0 h0]
  simp only [Option.bind_eq_bind, Option.some_bind]
  rw [readU8_ext l0 q b1 l1 hb1]
  simp only [Option.some_bind]
  rw [readU8_ext l1 q b2 l2 hb2]
  simp only [Option.some_bind]
  rw [readU8_ext l2 q b3 l3 hb3]
  simp only [Option.some_bind, Option.some.injEq, Prod.mk.injEq] at h ⊢
  exact ⟨h.1, by rw [h.2]⟩

theorem readBytes_ext (n : ℕ) : ReaderExt (readBytes n) := by
  intro p q v rest h
  unfold readBytes at h ⊢
  split_ifs at h with hle
  · simp only [Option.some.injEq, Prod.mk.injEq] at h
    rw [if_pos (by simp; omega)]
    rw [List.take_append_of_le_length hle, List.drop_append_of_le_length hle]
    simp [h.1, h.2]

theorem spirv_deserialize_ext : ReaderExt SPIRVKernelArg.deserialize := by
  intro p q v rest h
  unfold SPIRVKernelArg.deserialize at h ⊢
  simp only [Option.bind_eq_bind, Option.bind_eq_some] at h
  obtain ⟨⟨n, l0⟩, h0, ⟨⟨bytes, l1⟩, hb, h⟩⟩ := h
  rw [readU16_ext p q n l0 h0]
  simp only [Option.bind_eq_bind, Option.some_bind]
  rw [readBytes_ext n l0 q bytes l1 hb]
  simp only [Option.some_bind, Option.some.injEq, Prod.mk.injEq] at h ⊢
  exact ⟨h.1, by rw [h.2]⟩

theorem kernelArg_deserializeOne_ext : ReaderExt KernelArg.deserializeOne := by
  intro p q v rest h
  unfold KernelArg.deserializeOne at h ⊢
  simp only [Option.bind_eq_bind, Option.bind_eq_some] at h
  obtain ⟨⟨sp, l1⟩, hsp, ⟨⟨sz, l2⟩, hsz, ⟨⟨off, l3⟩, hoff, ⟨⟨bnd, l4⟩, hbnd,
    ⟨⟨dd, l5⟩, hdd, ⟨⟨kb, l6⟩, hkb, ⟨kind, hkind, h⟩⟩⟩⟩⟩⟩⟩ := h
  rw [spirv_deserialize_ext p q sp l1 hsp]
  simp only [Option.bind_eq_bind, Option.some_bind]
  rw [readU16_ext l1 q sz l2 hsz]
  simp only [Option.some_bind]
  rw [readU16_ext l2 q off l3 hoff]
  simp only [Option.some_bind]
  rw [readU16_ext l3 q bnd l4 hbnd]
  simp only [Option.some_bind]
  rw [readU8_ext l4 q dd l5 hdd]
  simp only [Option.some_bind]
  rw [readU8_ext l5 q kb l6 hkb]
  simp only [Option.some_bind, hkind]
  simp only [Option.some.injEq, Prod.mk.injEq] at h ⊢
  exact ⟨h.1, by rw [h.2]⟩

theorem iarg_readKind_ext (size offset tag : ℕ) :
    ReaderExt (InternalKernelArg.readKind size offset tag) := by
  intro p q v rest h
  unfold InternalKernelArg.readKind at h ⊢
  match tag with
  | 0 | 1 | 2 | 4 | 5 | 6 | 7 | 8 =>
    simp only [Option.some.injEq, Prod.mk.injEq] at h ⊢
    exact ⟨h.1, by rw [h.2]⟩
  | 3 =>
    simp only [Option.bind_eq_bind, Option.bind_eq_some] at h
    obtain ⟨⟨nb, l0⟩, h0, ⟨⟨am, l1⟩, ham, ⟨⟨fm, l2⟩, hfm, h⟩⟩⟩ := h
    rw [readU8_ext p q nb l0 h0]
    simp only [Option.bind_eq_bind, Option.some_bind]
    rw [readU32_ext l0 q am l1 ham]
    simp only [Option.some_bind]
    rw [readU32_ext l1 q fm l2 hfm]
    simp only [Option.some_bind, Option.some.injEq, Prod.mk.injEq] at h ⊢
    exact ⟨h.1, by rw [h.2]⟩
  | n + 9 => simp at h

theorem iarg_deserializeOne_ext : ReaderExt InternalKernelArg.deserializeOne := by
  intro p q v rest h
  unfold InternalKernelArg.deserializeOne at h ⊢
  simp only [Option.bind_eq_bind, Option.bind_eq_some] at h
  obtain ⟨⟨sz, l1⟩, hsz, ⟨⟨off, l2⟩, hoff, ⟨⟨tg, l3⟩, htg, h⟩⟩⟩ := h
  rw [readU16_ext p q sz l1 hsz]
  simp only [Option.bind_eq_bind, Option.some_bind]
  rw [readU16_ext l1 q off l2 hoff]
  simp only [Option.some_bind]
  rw [readU8_ext l2 q tg l3 htg]
  simp only [Option.some_bind]
  exact iarg_readKind_ext sz off tg l3 q v rest h

theorem readEntries_ext {α : Type} (rd : List ℕ → Option (α × List ℕ))
    (hrd : ReaderExt rd) : ∀ n, ReaderExt (readEntries rd n) := by
  intro n
  induction n with
  | zero =>
    intro p q v rest h
    simp only [readEntries, Option.some.injEq, Prod.mk.injEq] at h ⊢
    exact ⟨h.1, by rw [h.2]⟩
  | succ m ih =>
    intro p q v rest h
    unfold readEntries at h ⊢
    simp only [Option.bind_eq_bind, Option.bind_eq_some] at h
    obtain ⟨⟨a, l1⟩, ha, ⟨⟨as, l2⟩, has, h⟩⟩ := h
    rw [hrd p q a l1 ha]
    simp only [Option.bind_eq_bind, Option.some_bind]
    rw [ih l1 q as l2 has]
    simp only [Option.some_bind, Option.some.injEq, Prod.mk.injEq] at h ⊢
    exact ⟨h.1, by rw [h.2]⟩

theorem kernelArg_deserialize_ext : ReaderExt KernelArg.deserialize := by
  intro p q v rest h
  unfold KernelArg.deserialize at h ⊢
  simp only [Option.bind_eq_bind, Option.bind_eq_some] at h
  obtain ⟨⟨n, l1⟩, hn, h⟩ := h
  rw [readU16_ext p q n l1 hn]
  simp only [Option.bind_eq_bind, Option.some_bind]
  exact readEntries_ext _ kernelArg_deserializeOne_ext n l1 q v rest h

theorem iarg_deserialize_ext : ReaderExt InternalKernelArg.deserialize := by
  intro p q v rest h
  unfold InternalKernelArg.deserialize at h ⊢
  simp only [Option.bind_eq_bind, Option.bind_eq_some] at h
  obtain ⟨⟨n, l1⟩, hn, h⟩ := h
  rw [readU16_ext p q n l1 hn]
  simp only [Option.bind_eq_bind, Option.some_bind]
  exact readEntries_ext _ iarg_deserializeOne_ext n l1 q v rest h

theorem kernelArg_truncated (args : List KernelArg) (k : ℕ)
    (hlen : args.length < 2 ^ 16) (hwf : ∀ a ∈ args, a.wf)
    (hk : k < (KernelArg.serialize args).length) :
    KernelArg.deserialize ((KernelArg.serialize args).take k) = none := by
  cases hres : KernelArg.deserialize ((KernelArg.serialize args).take k) with
  | none => rfl
  | some vr =>
    obtain ⟨v, rest⟩ := vr
    have hext := kernelArg_deserialize_ext _ ((KernelArg.serialize args).drop k) v rest hres
    rw [List.take_append_drop] at hext
    have hrt := kernelArg_roundtrip args [] hlen hwf
    rw [List.append_nil] at hrt
    rw [hrt] at hext
    simp only [Option.some.injEq, Prod.mk.injEq] at hext
    have hlen2 := congrArg List.length hext.2
    simp only [List.length_nil, List.length_append, List.length_drop] at hlen2
    omega

theorem iarg_truncated (args : List InternalKernelArg) (k : ℕ)
    (hlen : args.length < 2 ^ 16) (hwf : ∀ a ∈ args, a.wf)
    (hk : k < (InternalKernelArg.serialize args).length) :
    InternalKernelArg.deserialize ((InternalKernelArg.serialize args).take k) = none := by
  cases hres : InternalKernelArg.deserialize ((InternalKernelArg.serialize args).take k) with
  | none => rfl
  | some vr =>
    obtain ⟨v, rest⟩ := vr
    have hext := iarg_deserialize_ext _ ((InternalKernelArg.serialize args).drop k) v rest hres
    rw [List.take_append_drop] at hext
    have hrt := iarg_roundtrip args [] hlen hwf
    rw [List.append_nil] at hrt
    rw [hrt] at hext
    simp only [Option.some.injEq, Prod.mk.injEq] at hext
    have hlen2 := congrArg List.length hext.2
    simp only [List.length_nil, List.length_append, List.length_drop] at hlen2
    omega

theorem kernelArg_badtag (t : ℕ) (h8 : 8 ≤ t) (h256 : t < 256) :
    KernelArg.deserialize (writeU16 1 ++ SPIRVKernelArg.serialize ⟨[]⟩ ++ writeU16 0 ++
      writeU16 0 ++ writeU16 0 ++ writeU8 0 ++ writeU8 t) = none := by
  have hmod : t % 256 = t := Nat.mod_eq_of_lt h256
  simp only [KernelArg.deserialize, KernelArg.deserializeOne, SPIRVKernelArg.serialize,
    SPIRVKernelArg.deserialize, readEntries, readBytes, writeU16, writeU8, readU16, readU8,
    List.cons_append, List.nil_append, List.append_nil, Option.bind_eq_bind,
    Option.some_bind, hmod]
  norm_num [readEntries, kernelArgTypeOfU8_big t h8]

theorem iarg_badtag (t : ℕ) (h9 : 9 ≤ t) (h256 : t < 256) :
    InternalKernelArg.deserialize (writeU16 1 ++ writeU16 0 ++ writeU16 0 ++ writeU8 t) =
      none := by
  have hmod : t % 256 = t := Nat.mod_eq_of_lt h256
  have hkind : ∀ l, InternalKernelArg.readKind 0 0 t l = none := by
    intro l
    match t, h9 with
    | n + 9, _ => rfl
  simp only [InternalKernelArg.deserialize, InternalKernelArg.deserializeOne,
    readEntries, writeU16, writeU8, readU16, readU8, List.cons_append, List.nil_append,
    Option.bind_eq_bind, Option.some_bind, hmod]
  norm_num [readEntries, hkind]

/-- C2: serialize/deserialize of the KernelArg and InternalKernelArg
lists is a field-for-field round-trip whenever the serialized fields
fit their 16-bit (and inline-sampler 32-bit) widths; a blob carrying an
out-of-range kind tag (8.. for KernelArg, 9.. for InternalKernelArg)
deserializes to none; and any strict truncation of a serialized blob
deserializes to none rather than panicking. -/
theorem claim_C2 :
    (∀ (args : List KernelArg) (r : List ℕ), args.length < 2 ^ 16 →
      (∀ a ∈ args, a.wf) →
      KernelArg.deserialize (KernelArg.serialize args ++ r) = some (args, r)) ∧
    (∀ (args : List InternalKernelArg) (r : List ℕ), args.length < 2 ^ 16 →
      (∀ a ∈ args, a.wf) →
      InternalKernelArg.deserialize (InternalKernelArg.serialize args ++ r) =
        some (args, r)) ∧
    (∀ t, 8 ≤ t → t < 256 →
      KernelArg.deserialize (writeU16 1 ++ SPIRVKernelArg.serialize ⟨[]⟩ ++ writeU16 0 ++
        writeU16 0 ++ writeU16 0 ++ writeU8 0 ++ writeU8 t) = none) ∧
    (∀ t, 9 ≤ t → t < 256 →
      InternalKernelArg.deserialize
        (writeU16 1 ++ writeU16 0 ++ writeU16 0 ++ writeU8 t) = none) ∧
    (∀ (args : List KernelArg) (k : ℕ), args.length < 2 ^ 16 → (∀ a ∈ args, a.wf) →
      k < (KernelArg.serialize args).length →
      KernelArg.deserialize ((KernelArg.serialize args).take k) = none) ∧
    (∀ (args : List InternalKernelArg) (k : ℕ), args.length < 2 ^ 16 →
      (∀ a ∈ args, a.wf) → k < (InternalKernelArg.serialize args).length →
      InternalKernelArg.deserialize ((InternalKernelArg.serialize args).take k) = none) :=
  ⟨kernelArg_roundtrip, iarg_roundtrip, kernelArg_badtag, iarg_badtag,
    kernelArg_truncated, iarg_truncated⟩

/-- Witness for C2: a one-element argument list round-trips, the
internal list with an inline sampler round-trips, tag 9 and tag 200 are
rejected, and dropping the last byte of each serialized blob is
rejected. -/
theorem claim_C2_witness :
    (KernelArg.deserialize (KernelArg.serialize
        [⟨⟨[7, 7]⟩, KernelArgType.MemGlobal, 8, 16, 2, false⟩] ++ [9, 9]) =
      some ([⟨⟨[7, 7]⟩, KernelArgType.MemGlobal, 8, 16, 2, false⟩], [9, 9])) ∧
    (InternalKernelArg.deserialize (InternalKernelArg.serialize
        [⟨.InlineSampler 5 6 true, 0, 0⟩, ⟨.WorkGroupOffsets, 24, 32⟩] ++ []) =
      some ([⟨.InlineSampler 5 6 true, 0, 0⟩, ⟨.WorkGroupOffsets, 24, 32⟩], [])) ∧
    (KernelArg.deserialize (writeU16 1 ++ SPIRVKernelArg.serialize ⟨[]⟩ ++ writeU16 0 ++
      writeU16 0 ++ writeU16 0 ++ writeU8 0 ++ writeU8 200) = none) ∧
    (InternalKernelArg.deserialize
      (writeU16 1 ++ writeU16 0 ++ writeU16 0 ++ writeU8 9) = none) ∧
    (KernelArg.deserialize ((KernelArg.serialize
        [⟨⟨[7, 7]⟩, KernelArgType.MemGlobal, 8, 16, 2, false⟩]).take 12) = none) ∧
    (InternalKernelArg.deserialize ((InternalKernelArg.serialize
        [⟨.WorkGroupOffsets, 24, 32⟩]).take 6) = none) := by
  refine ⟨claim_C2.1 _ _ (by norm_num) (by decide),
    claim_C2.2.1 _ _ (by norm_num) (by decide),
    claim_C2.2.2.1 200 (by norm_num) (by norm_num),
    claim_C2.2.2.2.1 9 (by norm_num) (by norm_num),
    claim_C2.2.2.2.2.1 _ 12 (by norm_num) (by decide) (by decide),
    claim_C2.2.2.2.2.2 _ 6 (by norm_num) (by decide) (by decide)⟩

/-! ## C4: internal-argument order and offsets -/

theorem mem_ite_list {α : Type} (x : α) (c : Prop) [Decidable c] (l : List α) :
    (x ∈ if c then l else []) ↔ c ∧ x ∈ l := by
  split_ifs with h <;> simp [h]

theorem ite_list_sublist {α : Type} (c : Prop) [Decidable c] (l : List α) :
    (if c then l else []).Sublist l := by
  split_ifs with h
  · exact List.Sublist.refl l
  · exact List.nil_sublist l

theorem inline_filter_nil (inlineSamplers : List (ℕ × ℕ × Bool)) :
    (inlineSamplers.map fun s =>
        (⟨.InlineSampler s.1 s.2.1 s.2.2, 0, 0⟩ : InternalKernelArg)).filter
      (fun a => !a.kind.isInlineSampler) = [] := by
  induction inlineSamplers with
  | nil => rfl
  | cons s rest ih =>
    simp only [List.map_cons, List.filter_cons]
    rw [if_neg (by simp [InternalKernelArgType.isInlineSampler])]
    exact ih

/-- The fixed non-inline-sampler kind order of §4.4 step 5. -/
theorem lower_internal_args_filtered (inlineSamplers : List (ℕ × ℕ × Bool))
    (ni : KernelNirInfo) :
    ((lower_internal_args inlineSamplers ni).filter
        (fun a => !a.kind.isInlineSampler)).map (fun a => a.kind) =
      (if ni.readsBaseGlobalInvocationId = true then
        [InternalKernelArgType.GlobalWorkOffsets] else []) ++
      (if ni.readsBaseWorkgroupId = true then
        [InternalKernelArgType.WorkGroupOffsets] else []) ++
      (if ni.readsNumWorkgroups = true then
        [InternalKernelArgType.NumWorkgroups] else []) ++
      (if ni.hasConstant = true then [InternalKernelArgType.ConstantBuffer] else []) ++
      (if ni.hasPrintf = true then [InternalKernelArgType.PrintfBuffer] else []) ++
      (if 0 < ni.numImages ∨ 0 < ni.numTextures then
        [InternalKernelArgType.FormatArray, InternalKernelArgType.OrderArray] else []) ++
      (if ni.readsWorkDim = true then [InternalKernelArgType.WorkDim] else []) := by
  unfold lower_internal_args
  simp only [List.filter_append, inline_filter_nil, List.nil_append, List.map_append]
  congr 1
  rotate_left
  · split_ifs <;> rfl
  congr 1
  rotate_left
  · split_ifs <;> rfl
  congr 1
  rotate_left
  · split_ifs <;> rfl
  congr 1
  rotate_left
  · split_ifs <;> rfl
  congr 1
  rotate_left
  · split_ifs <;> rfl
  congr 1
  · split_ifs <;> rfl
  · split_ifs <;> rfl

theorem assign_locations_spec :
    ∀ (vars : List NirVariable) (args : List KernelArg) (iargs : List InternalKernelArg)
      (resArgs : List KernelArg) (resIargs : List InternalKernelArg),
      assign_locations args iargs vars = some (resArgs, resIargs) →
      resArgs.length = args.length ∧ resIargs.length = iargs.length ∧
      (∀ k (h : k < resArgs.length) (h2 : k < args.length),
        (resArgs.get ⟨k, h⟩).offset = (args.get ⟨k, h2⟩).offset ∨
          ∃ v ∈ vars, v.location = k ∧ (resArgs.get ⟨k, h⟩).offset = v.driverLocation) ∧
      (∀ k (h : k < resIargs.length) (h2 : k < iargs.length),
        ((∀ v ∈ vars, v.location ≠ args.length + k) ∧
            (resIargs.get ⟨k, h⟩).offset = (iargs.get ⟨k, h2⟩).offset) ∨
          ∃ v ∈ vars, v.location = args.length + k ∧
            (resIargs.get ⟨k, h⟩).offset = v.driverLocation)
  | [], args, iargs, resArgs, resIargs => by
    intro h
    simp only [assign_locations, Option.some.injEq, Prod.mk.injEq] at h
    obtain ⟨h1, h2⟩ := h
    subst h1; subst h2
    refine ⟨rfl, rfl, fun k h h2 => Or.inl rfl, fun k h h2 => Or.inl ⟨by simp, rfl⟩⟩
  | v :: vs, args, iargs, resArgs, resIargs => by
    intro h
    unfold assign_locations at h
    split_ifs at h with hloc hloc2
    · have ih := assign_locations_spec vs
        (args.set v.location
          { args.get ⟨v.location, hloc⟩ with
            offset := v.driverLocation, binding := v.binding, dead := false })
        iargs resArgs resIargs h
      obtain ⟨ihl, ihl2, ihu, ihi⟩ := ih
      simp only [List.length_set] at ihl ihu ihi
      refine ⟨ihl, ihl2, fun k hk hk2 => ?_, fun k hk hk2 => ?_⟩
      · rcases ihu k hk hk2 with heq | ⟨w, hw, hwl, hwo⟩
        · by_cases hkv : v.location = k
          · subst hkv
            right
            refine ⟨v, by simp, rfl, ?_⟩
            rw [heq]
            simp [List.get_eq_getElem, List.getElem_set_self]
          · left
            rw [heq]
            simp [List.get_eq_getElem, List.getElem_set, hkv]
        · exact Or.inr ⟨w, by simp [hw], hwl, hwo⟩
      · rcases ihi k hk hk2 with ⟨hnone, heq⟩ | ⟨w, hw, hwl, hwo⟩
        · left
          refine ⟨fun w hw => ?_, heq⟩
          rcases List.mem_cons.mp hw with hv | hv
          · subst hv; omega
          · exact hnone w hv
        · exact Or.inr ⟨w, by simp [hw], hwl, hwo⟩
    · have ih := assign_locations_spec vs args
        (iargs.set (v.location - args.length)
          { iargs.get ⟨v.location - args.length, hloc2⟩ with offset := v.driverLocation })
        resArgs resIargs h
      obtain ⟨ihl, ihl2, ihu, ihi⟩ := ih
      simp only [List.length_set] at ihl2 ihu ihi
      refine ⟨ihl, ihl2, fun k hk hk2 => ?_, fun k hk hk2 => ?_⟩
      · rcases ihu k hk hk2 with heq | ⟨w, hw, hwl, hwo⟩
        · exact Or.inl heq
        · exact Or.inr ⟨w, by simp [hw], hwl, hwo⟩
      · rcases ihi k hk hk2 with ⟨hnone, heq⟩ | ⟨w, hw, hwl, hwo⟩
        · by_cases hkv : v.location - args.length = k
          · right
            refine ⟨v, by simp, by omega, ?_⟩
            rw [heq]
            subst hkv
            simp [List.get_eq_getElem, List.getElem_set_self]
          · left
            refine ⟨fun w hw => ?_, ?_⟩
            · rcases List.mem_cons.mp hw with hv | hv
              · subst hv; omega
              · exact hnone w hv
            · rw [heq]
              simp [List.get_eq_getElem, List.getElem_set, hkv]
        · exact Or.inr ⟨w, by simp [hw], hwl, hwo⟩

theorem map_ite_kind (c : Prop) [Decidable c] (l : List InternalKernelArg) :
    (if c then l else []).map (fun a => a.kind) =
      if c then l.map (fun a => a.kind) else [] := by
  split_ifs <;> rfl

theorem lower_internal_args_kinds (inlineSamplers : List (ℕ × ℕ × Bool))
    (ni : KernelNirInfo) :
    (lower_internal_args inlineSamplers ni).map (fun a => a.kind) =
      (inlineSamplers.map fun s =>
        InternalKernelArgType.InlineSampler s.1 s.2.1 s.2.2) ++
      (if ni.readsBaseGlobalInvocationId = true then
        [InternalKernelArgType.GlobalWorkOffsets] else []) ++
      (if ni.readsBaseWorkgroupId = true then
        [InternalKernelArgType.WorkGroupOffsets] else []) ++
      (if ni.readsNumWorkgroups = true then
        [InternalKernelArgType.NumWorkgroups] else []) ++
      (if ni.hasConstant = true then [InternalKernelArgType.ConstantBuffer] else []) ++
      (if ni.hasPrintf = true then [InternalKernelArgType.PrintfBuffer] else []) ++
      (if 0 < ni.numImages ∨ 0 < ni.numTextures then
        [InternalKernelArgType.FormatArray, InternalKernelArgType.OrderArray] else []) ++
      (if ni.readsWorkDim = true then [InternalKernelArgType.WorkDim] else []) := by
  unfold lower_internal_args
  simp only [List.map_append, map_ite_kind, List.map_map, List.map_cons, List.map_nil]
  rfl

/-- C4: the non-inline-sampler internal argument kinds appear in the
fixed relative order GlobalWorkOffsets, WorkGroupOffsets,
NumWorkgroups, ConstantBuffer, PrintfBuffer, FormatArray, OrderArray,
WorkDim, each present exactly when the kernel needs it; and after
final location assignment (driver offsets nondecreasing in variable
location, every internal argument backed by a variable) every internal
argument's byte offset is at least every user argument's byte
offset. -/
theorem claim_C4 :
    ∀ (inlineSamplers : List (ℕ × ℕ × Bool)) (ni : KernelNirInfo),
    (((lower_internal_args inlineSamplers ni).filter
        (fun a => !a.kind.isInlineSampler)).map (fun a => a.kind)).Sublist
      [InternalKernelArgType.GlobalWorkOffsets, InternalKernelArgType.WorkGroupOffsets,
        InternalKernelArgType.NumWorkgroups, InternalKernelArgType.ConstantBuffer,
        InternalKernelArgType.PrintfBuffer, InternalKernelArgType.FormatArray,
        InternalKernelArgType.OrderArray, InternalKernelArgType.WorkDim] ∧
    ((InternalKernelArgType.GlobalWorkOffsets ∈
        (lower_internal_args inlineSamplers ni).map (fun a => a.kind) ↔
        ni.readsBaseGlobalInvocationId = true) ∧
      (InternalKernelArgType.WorkGroupOffsets ∈
        (lower_internal_args inlineSamplers ni).map (fun a => a.kind) ↔
        ni.readsBaseWorkgroupId = true) ∧
      (InternalKernelArgType.NumWorkgroups ∈
        (lower_internal_args inlineSamplers ni).map (fun a => a.kind) ↔
        ni.readsNumWorkgroups = true) ∧
      (InternalKernelArgType.ConstantBuffer ∈
        (lower_internal_args inlineSamplers ni).map (fun a => a.kind) ↔
        ni.hasConstant = true) ∧
      (InternalKernelArgType.PrintfBuffer ∈
        (lower_internal_args inlineSamplers ni).map (fun a => a.kind) ↔
        ni.hasPrintf = true) ∧
      (InternalKernelArgType.FormatArray ∈
        (lower_internal_args inlineSamplers ni).map (fun a => a.kind) ↔
        (0 < ni.numImages ∨ 0 < ni.numTextures)) ∧
      (InternalKernelArgType.OrderArray ∈
        (lower_internal_args inlineSamplers ni).map (fun a => a.kind) ↔
        (0 < ni.numImages ∨ 0 < ni.numTextures)) ∧
      (InternalKernelArgType.WorkDim ∈
        (lower_internal_args inlineSamplers ni).map (fun a => a.kind) ↔
        ni.readsWorkDim = true)) ∧
    (∀ (args : List KernelArg) (vars : List NirVariable)
        (resArgs : List KernelArg) (resIargs : List InternalKernelArg),
      (∀ a ∈ args, a.offset = 0) →
      (∀ v ∈ vars, ∀ w ∈ vars, v.location < w.location →
        v.driverLocation ≤ w.driverLocation) →
      (∀ j, j < (lower_internal_args inlineSamplers ni).length →
        ∃ v ∈ vars, v.location = args.length + j) →
      assign_locations args (lower_internal_args inlineSamplers ni) vars =
        some (resArgs, resIargs) →
      ∀ a ∈ resArgs, ∀ ia ∈ resIargs, a.offset ≤ ia.offset) := by
  intro inlineSamplers ni
  refine ⟨?_, ?_, ?_⟩
  · rw [lower_internal_args_filtered]
    have hsplit :
        ([InternalKernelArgType.GlobalWorkOffsets, InternalKernelArgType.WorkGroupOffsets,
          InternalKernelArgType.NumWorkgroups, InternalKernelArgType.ConstantBuffer,
          InternalKernelArgType.PrintfBuffer, InternalKernelArgType.FormatArray,
          InternalKernelArgType.OrderArray, InternalKernelArgType.WorkDim] :
            List InternalKernelArgType) =
          [InternalKernelArgType.GlobalWorkOffsets] ++
            [InternalKernelArgType.WorkGroupOffsets] ++
            [InternalKernelArgType.NumWorkgroups] ++
            [InternalKernelArgType.ConstantBuffer] ++
            [InternalKernelArgType.PrintfBuffer] ++
            [InternalKernelArgType.FormatArray, InternalKernelArgType.OrderArray] ++
            [InternalKernelArgType.WorkDim] := rfl
    rw [hsplit]
    exact ((((((ite_list_sublist _ _).append (ite_list_sublist _ _)).append
      (ite_list_sublist _ _)).append (ite_list_sublist _ _)).append
      (ite_list_sublist _ _)).append (ite_list_sublist _ _)).append
      (ite_list_sublist _ _)
  · rw [lower_internal_args_kinds]
    refine ⟨?_, ?_, ?_, ?_, ?_, ?_, ?_, ?_⟩ <;>
      simp [List.mem_append, List.mem_map, mem_ite_list]
  · intro args vars resArgs resIargs hinit hmono hcover hassign
    intro a ha ia hia
    obtain ⟨spec1, spec2, spec3, spec4⟩ :=
      assign_locations_spec vars args (lower_internal_args inlineSamplers ni)
        resArgs resIargs hassign
    obtain ⟨⟨j, hj⟩, hja⟩ := List.mem_iff_get.mp ha
    obtain ⟨⟨k, hk⟩, hki⟩ := List.mem_iff_get.mp hia
    rcases spec4 k hk (by omega) with ⟨hnone, _⟩ | ⟨w, hw, hwl, hwo⟩
    · obtain ⟨v, hv, hvl⟩ := hcover k (by omega)
      exact absurd hvl (hnone v hv)
    · rcases spec3 j hj (by omega) with heq | ⟨v, hv, hvl, hvo⟩
      · rw [← hja, heq]
        rw [hinit (args.get ⟨j, by omega⟩) (List.get_mem _ _ _)]
        omega
      · have hlt : v.location < w.location := by omega
        have := hmono v hv w hw hlt
        rw [← hja, ← hki]
        omega

/-- Witness for C4: a kernel reading the base global-invocation id,
one user argument, and variables at locations 0 and 1 with offsets 4
and 8. -/
theorem claim_C4_witness :
    ∀ a ∈ ([⟨⟨[]⟩, KernelArgType.MemGlobal, 8, 4, 0, false⟩] : List KernelArg),
      ∀ ia ∈ ([⟨.GlobalWorkOffsets, 24, 8⟩] : List InternalKernelArg),
        a.offset ≤ ia.offset :=
  (claim_C4 [] ⟨true, false, false, false, false, 0, 0, false, 64⟩).2.2
    [⟨⟨[]⟩, KernelArgType.MemGlobal, 8, 0, 0, true⟩]
    [⟨0, 4, 0⟩, ⟨1, 8, 0⟩] _ _ (by decide) (by decide) (by decide) (by decide)

/-! ## C5: OpIAdd2 with an overflowing immediate

The claim as frozen says legalization materializes the overflowing
immediate into a register; the code instead leaves it in place and the
encoder selects the dedicated 32-bit-immediate opcode 0x1c00. -/

/-- C5 counterexample: for the add with second operand immediate
0x00123456 (outside the signed 20-bit range) legalization emits no
copy and the second operand is still the immediate — not a register as
the claim requires. -/
theorem claim_C5_counterexample :
    (OpIAdd2.legalize 100
        ⟨0, ⟨.reg 1, false⟩, ⟨.imm32 0x123456, false⟩, false, false⟩).1 = [] ∧
      (OpIAdd2.legalize 100
          ⟨0, ⟨.reg 1, false⟩, ⟨.imm32 0x123456, false⟩, false, false⟩).2.src1.srcRef =
        SrcRef.imm32 0x123456 := by
  decide

/-- C5 as amended: for an add whose first source is a register and
whose second source is a 32-bit immediate outside the signed 20-bit
inline range, legalization leaves the instruction unchanged (no move
is emitted) and the encoder selects the 32-bit-immediate opcode form
(set_opcode 0x1c00) carrying the full immediate losslessly in bits
20..52; the opcode bits surviving above the immediate, bits 52..64,
equal 0x1c00 >> 4 when both carry flags are clear. -/
theorem claim_C5_amended :
    ∀ (d r i nextReg : ℕ), d < 2 ^ 8 → r < 2 ^ 8 → i < 2 ^ 32 →
      i20Representable i = false →
      (∀ m0 ci co : Bool,
        OpIAdd2.legalize nextReg ⟨d, ⟨.reg r, m0⟩, ⟨.imm32 i, false⟩, ci, co⟩ =
          ([], ⟨d, ⟨.reg r, m0⟩, ⟨.imm32 i, false⟩, ci, co⟩)) ∧
      ∃ w, OpIAdd2.encode ⟨d, ⟨.reg r, false⟩, ⟨.imm32 i, false⟩, false, false⟩ =
          some w ∧ getField w 20 32 = i ∧ getField w 52 12 = 0x1c0 := by
  intro d r i nextReg hd hr hi hrep
  constructor
  · intro m0 ci co
    simp [OpIAdd2.legalize, swapSrcsIfNotReg, copyAluSrcIfNotReg, Src.isRegOrZero]
  · have hasimm :
        (⟨SrcRef.imm32 i, false⟩ : Src).asImmNotI20 = some i := by
      simp [Src.asImmNotI20, hrep]
    unfold OpIAdd2.encode
    rw [hasimm]
    simp only [Bool.false_eq_true, if_false, setRegSrcRef, Option.bind_eq_bind,
      Option.some_bind]
    have e0 : setField 0 48 16 0x1c00 = 0x1c00 * 2 ^ 48 := by
      unfold setField; norm_num
    have e1 : setField (0x1c00 * 2 ^ 48) 0 8 d = d + 0x1c00 * 2 ^ 48 := by
      unfold setField; norm_num; omega
    have e2 : setField (d + 0x1c00 * 2 ^ 48) 8 8 r =
        d + r * 2 ^ 8 + 0x1c00 * 2 ^ 48 := by
      unfold setField; norm_num; omega
    have e3 : setField (d + r * 2 ^ 8 + 0x1c00 * 2 ^ 48) 56 1 0 =
        d + r * 2 ^ 8 + 0x1c00 * 2 ^ 48 := by
      unfold setField; norm_num; omega
    have e4 : setField (d + r * 2 ^ 8 + 0x1c00 * 2 ^ 48) 20 32 i =
        d + r * 2 ^ 8 + i * 2 ^ 20 + 0x1c00 * 2 ^ 48 := by
      unfold setField; norm_num; omega
    have e5 : setField (d + r * 2 ^ 8 + i * 2 ^ 20 + 0x1c00 * 2 ^ 48) 53 1 0 =
        d + r * 2 ^ 8 + i * 2 ^ 20 + 0x1c00 * 2 ^ 48 := by
      unfold setField; norm_num; omega
    have e6 : setField (d + r * 2 ^ 8 + i * 2 ^ 20 + 0x1c00 * 2 ^ 48) 52 1 0 =
        d + r * 2 ^ 8 + i * 2 ^ 20 + 0x1c00 * 2 ^ 48 := by
      unfold setField; norm_num; omega
    refine ⟨_, rfl, ?_, ?_⟩
    · rw [e0, e1, e2, e3, e4, e5, e6]
      unfold getField
      norm_num
      omega
    · rw [e0, e1, e2, e3, e4, e5, e6]
      unfold getField
      norm_num
      omega

/-- Witness for C5 at dst 0, src register 1, immediate 0x123456. -/
theorem claim_C5_witness :
    ∃ w, OpIAdd2.encode ⟨0, ⟨.reg 1, false⟩, ⟨.imm32 0x123456, false⟩, false, false⟩ =
        some w ∧ getField w 20 32 = 0x123456 ∧ getField w 52 12 = 0x1c0 :=
  (claim_C5_amended 0 1 0x123456 100 (by norm_num) (by norm_num) (by norm_num)
    (by decide)).2

/-! ## C8: dead arguments are skipped without shifting live ones -/

theorem marshalStep_dead (s : LaunchState) (a : KernelArg)
    (v : Option KernelArgValue) (h : a.dead = true) :
    marshalStep s a v = some s := by
  unfold marshalStep
  rw [if_pos h]

theorem marshalArgs_cons (s : LaunchState) (a : KernelArg)
    (v : Option KernelArgValue) (rest : List (KernelArg × Option KernelArgValue)) :
    marshalArgs s ((a, v) :: rest) =
      match marshalStep s a v with
      | some s2 => marshalArgs s2 rest
      | none => none := rfl

theorem marshalArgs_filter_dead :
    ∀ (pairs : List (KernelArg × Option KernelArgValue)) (s : LaunchState),
      marshalArgs s pairs = marshalArgs s (pairs.filter fun p => !p.1.dead)
  | [], s => rfl
  | (a, v) :: rest, s => by
    by_cases hd : a.dead
    · rw [List.filter_cons_of_neg (by simp [hd]), marshalArgs_cons,
        marshalStep_dead s a v hd]
      exact marshalArgs_filter_dead rest s
    · rw [List.filter_cons_of_pos (by simp [hd]), marshalArgs_cons, marshalArgs_cons]
      cases marshalStep s a v with
      | none => rfl
      | some s2 => exact marshalArgs_filter_dead rest s2

theorem listResize_length (l : List ℕ) (n : ℕ) : (listResize l n).length = n := by
  unfold listResize
  simp
  omega

theorem listResize_of_le (l : List ℕ) (n : ℕ) (h : l.length ≤ n) :
    listResize l n = l ++ List.replicate (n - l.length) 0 := by
  unfold listResize
  rw [List.take_of_length_le h]

theorem marshalStep_inline_shape (s : LaunchState) (a : KernelArg)
    (v : Option KernelArgValue) (s2 : LaunchState)
    (h : marshalStep s a v = some s2) (hd : a.dead = false)
    (hi : a.kind.isInline = true) :
    ∃ bs, s2.input = listResize s.input a.offset ++ bs ∧ bs.length = inlineLen v := by
  match v with
  | none => simp [marshalStep, hd, hi] at h
  | some (.constant c) =>
    simp only [marshalStep, hd, hi, Bool.false_eq_true, if_false, if_true,
      Option.some.injEq] at h
    exact ⟨c, by rw [← h], rfl⟩
  | some (.buffer res offset) =>
    simp only [marshalStep, hd, hi, Bool.false_eq_true, if_false, if_true,
      addGlobal, Option.some.injEq] at h
    exact ⟨writeU64 offset, by rw [← h], rfl⟩
  | some (.image res dt or) =>
    have hni : ¬(a.kind = .Image ∨ a.kind = .RWImage) := by
      rcases hk : a.kind <;> simp_all [KernelArgType.isInline]
    simp only [marshalStep, hd, hi, Bool.false_eq_true, if_false, if_true,
      if_neg hni] at h
    split_ifs at h with hb
    simp only [Option.some.injEq] at h
    exact ⟨[], by rw [← h]; simp, rfl⟩
  | some (.localMem size) =>
    simp only [marshalStep, hd, hi, Bool.false_eq_true, if_false, if_true,
      Option.some.injEq] at h
    exact ⟨writeU64 (alignUp s.variableLocalSize (min size 0x80).nextPowerOfTwo),
      by rw [← h], rfl⟩
  | some (.sampler id) =>
    simp only [marshalStep, hd, hi, Bool.false_eq_true, if_false, if_true,
      Option.some.injEq] at h
    exact ⟨[], by rw [← h]; simp, rfl⟩
  | some .noneVal =>
    simp only [marshalStep, hd, hi, Bool.false_eq_true, if_false, if_true] at h
    split_ifs at h with hk
    simp only [Option.some.injEq] at h
    exact ⟨List.replicate 8 0, by rw [← h], by simp [inlineLen]⟩

theorem marshalStep_view_shape (s : LaunchState) (a : KernelArg)
    (v : Option KernelArgValue) (s2 : LaunchState)
    (h : marshalStep s a v = some s2) (hd : a.dead = false)
    (hi : a.kind.isInline = false) (hv : isViewValue v = true) :
    s2.input = s.input := by
  match v with
  | some (.image res dt or) =>
    simp only [marshalStep, hd, hi, Bool.false_eq_true, if_false] at h
    split_ifs at h <;> simp only [Option.some.injEq] at h <;> rw [← h]
  | some (.sampler id) =>
    simp only [marshalStep, hd, hi, Bool.false_eq_true, if_false,
      Option.some.injEq] at h
    rw [← h]

theorem marshalArgs_cons_bind (s : LaunchState) (a : KernelArg)
    (v : Option KernelArgValue) (rest : List (KernelArg × Option KernelArgValue)) :
    marshalArgs s ((a, v) :: rest) =
      (marshalStep s a v).bind fun s2 => marshalArgs s2 rest := by
  rw [marshalArgs_cons]
  cases marshalStep s a v <;> rfl

theorem layoutChain_cons (n : ℕ) (a : KernelArg) (v : Option KernelArgValue)
    (rest : List (KernelArg × Option KernelArgValue)) :
    layoutChain n ((a, v) :: rest) =
      if ¬a.dead ∧ a.kind.isInline then
        n ≤ a.offset ∧ layoutChain (a.offset + inlineLen v) rest
      else if ¬a.dead then
        isViewValue v = true ∧ layoutChain n rest
      else
        layoutChain n rest := rfl

theorem marshalArgs_grow :
    ∀ (pairs : List (KernelArg × Option KernelArgValue)) (s sF : LaunchState),
      layoutChain s.input.length pairs → marshalArgs s pairs = some sF →
      ∃ t, sF.input = s.input ++ t
  | [], s, sF, _, h => by
    simp only [marshalArgs, Option.some.injEq] at h
    exact ⟨[], by rw [← h]; simp⟩
  | (a, v) :: rest, s, sF, hchain, h => by
    rw [marshalArgs_cons_bind] at h
    cases hstep : marshalStep s a v with
    | none => rw [hstep] at h; simp at h
    | some s2 =>
      rw [hstep] at h
      simp only [Option.some_bind] at h
      rw [layoutChain_cons] at hchain
      by_cases hd : a.dead
      · have hs2 : s2 = s := by
          rw [marshalStep_dead s a v hd] at hstep
          exact (Option.some.injEq _ _ ▸ hstep).symm
        rw [if_neg (by simp [hd]), if_neg (by simp [hd])] at hchain
        subst hs2
        exact marshalArgs_grow rest s2 sF hchain h
      · by_cases hi : a.kind.isInline
        · rw [if_pos ⟨hd, hi⟩] at hchain
          obtain ⟨hoff, hchain2⟩ := hchain
          obtain ⟨bs, hbs, hlen⟩ := marshalStep_inline_shape s a v s2 hstep
            (by simpa using hd) hi
          have hresize := listResize_of_le s.input a.offset hoff
          have hs2len : s2.input.length = a.offset + inlineLen v := by
            rw [hbs, List.length_append, listResize_length, hlen]
          obtain ⟨t2, ht2⟩ := marshalArgs_grow rest s2 sF (by rw [hs2len]; exact hchain2) h
          refine ⟨List.replicate (a.offset - s.input.length) 0 ++ bs ++ t2, ?_⟩
          rw [ht2, hbs, hresize]
          simp [List.append_assoc]
        · rw [if_neg (by simp [hd, hi]), if_pos (by simpa using hd)] at hchain
          obtain ⟨hview, hchain2⟩ := hchain
          have hs2in : s2.input = s.input := marshalStep_view_shape s a v s2 hstep
            (by simpa using hd) (by simpa using hi) hview
          obtain ⟨t2, ht2⟩ := marshalArgs_grow rest s2 sF (by rw [hs2in]; exact hchain2) h
          exact ⟨t2, by rw [ht2, hs2in]⟩

theorem marshalArgs_position :
    ∀ (pre : List (KernelArg × Option KernelArgValue)) (a : KernelArg)
      (v : Option KernelArgValue) (post : List (KernelArg × Option KernelArgValue))
      (s0 sF : LaunchState),
      layoutChain s0.input.length (pre ++ (a, v) :: post) →
      marshalArgs s0 (pre ++ (a, v) :: post) = some sF →
      a.dead = false → a.kind.isInline = true →
      ∃ s1 s2 bs, marshalArgs s0 pre = some s1 ∧ marshalStep s1 a v = some s2 ∧
        s2.input = listResize s1.input a.offset ++ bs ∧ bs.length = inlineLen v ∧
        (sF.input.drop a.offset).take (inlineLen v) = bs
  | [], a, v, post, s0, sF, hchain, h, hd, hi => by
    rw [List.nil_append] at hchain h
    rw [marshalArgs_cons_bind] at h
    cases hstep : marshalStep s0 a v with
    | none => rw [hstep] at h; simp at h
    | some s2 =>
      rw [hstep] at h
      simp only [Option.some_bind] at h
      rw [layoutChain_cons, if_pos ⟨by simp [hd], hi⟩] at hchain
      obtain ⟨hoff, hchain2⟩ := hchain
      obtain ⟨bs, hbs, hlen⟩ := marshalStep_inline_shape s0 a v s2 hstep hd hi
      have hs2len : s2.input.length = a.offset + inlineLen v := by
        rw [hbs, List.length_append, listResize_length, hlen]
      obtain ⟨t, ht⟩ := marshalArgs_grow post s2 sF (by rw [hs2len]; exact hchain2) h
      refine ⟨s0, s2, bs, rfl, hstep, hbs, hlen, ?_⟩
      rw [ht, hbs, List.append_assoc]
      have hdrop : (listResize s0.input a.offset ++ (bs ++ t)).drop a.offset = bs ++ t := by
        have h2 := List.drop_left (listResize s0.input a.offset) (bs ++ t)
        rwa [listResize_length] at h2
      rw [hdrop, ← hlen, List.take_left]
  | (p, pv) :: pre, a, v, post, s0, sF, hchain, h, hd, hi => by
    rw [List.cons_append] at hchain h
    rw [marshalArgs_cons_bind] at h
    cases hstep : marshalStep s0 p pv with
    | none => rw [hstep] at h; simp at h
    | some s1 =>
      rw [hstep] at h
      simp only [Option.some_bind] at h
      rw [layoutChain_cons] at hchain
      have hnext : layoutChain s1.input.length (pre ++ (a, v) :: post) := by
        by_cases hpd : p.dead
        · have hs1 : s1 = s0 := by
            rw [marshalStep_dead s0 p pv hpd] at hstep
            exact (Option.some.injEq _ _ ▸ hstep).symm
          rw [if_neg (by simp [hpd]), if_neg (by simp [hpd])] at hchain
          rw [hs1]
          exact hchain
        · by_cases hpi : p.kind.isInline
          · rw [if_pos ⟨hpd, hpi⟩] at hchain
            obtain ⟨bs, hbs, hlen⟩ := marshalStep_inline_shape s0 p pv s1 hstep
              (by simpa using hpd) hpi
            have hs1len : s1.input.length = p.offset + inlineLen pv := by
              rw [hbs, List.length_append, listResize_length, hlen]
            rw [hs1len]
            exact hchain.2
          · rw [if_neg (by simp [hpd, hpi]), if_pos (by simpa using hpd)] at hchain
            have hs1in : s1.input = s0.input := marshalStep_view_shape s0 p pv s1 hstep
              (by simpa using hpd) (by simpa using hpi) hchain.1
            rw [hs1in]
            exact hchain.2
      obtain ⟨s1b, s2, bs, hm, hstep2, hbs, hlen, hslice⟩ :=
        marshalArgs_position pre a v post s1 sF hnext h hd hi
      refine ⟨s1b, s2, bs, ?_, hstep2, hbs, hlen, hslice⟩
      rw [marshalArgs_cons_bind, hstep]
      simpa using hm

/-- C8: the marshalling loop of Kernel::launch skips dead arguments
entirely — the input buffer and every recorded resource, view and
sampler binding equal those of the live-filtered list — and under the
computed layout discipline every live inline argument's bytes are
serialized at exactly its recorded offset, so a dead argument never
shifts another argument's bytes. -/
theorem claim_C8 :
    (∀ (pairs : List (KernelArg × Option KernelArgValue)) (s : LaunchState),
      marshalArgs s pairs = marshalArgs s (pairs.filter fun p => !p.1.dead)) ∧
    (∀ (pre : List (KernelArg × Option KernelArgValue)) (a : KernelArg)
        (v : Option KernelArgValue) (post : List (KernelArg × Option KernelArgValue))
        (s0 sF : LaunchState),
      layoutChain s0.input.length (pre ++ (a, v) :: post) →
      marshalArgs s0 (pre ++ (a, v) :: post) = some sF →
      a.dead = false → a.kind.isInline = true →
      ∃ s1 s2 bs, marshalArgs s0 pre = some s1 ∧ marshalStep s1 a v = some s2 ∧
        s2.input = listResize s1.input a.offset ++ bs ∧ bs.length = inlineLen v ∧
        (sF.input.drop a.offset).take (inlineLen v) = bs) :=
  ⟨marshalArgs_filter_dead, marshalArgs_position⟩

/-- Witness for C8: a dead argument followed by a live constant at
offset 3; the dead argument contributes nothing and the live bytes
land at offset 3. -/
theorem claim_C8_witness :
    (marshalArgs ⟨[], [], [], [], [], [], [], [], [], 0⟩
        [(⟨⟨[]⟩, KernelArgType.Constant, 4, 9, 0, true⟩, none),
          (⟨⟨[]⟩, KernelArgType.Constant, 2, 3, 0, false⟩,
            some (.constant [5, 6]))] =
      marshalArgs ⟨[], [], [], [], [], [], [], [], [], 0⟩
        ([(⟨⟨[]⟩, KernelArgType.Constant, 4, 9, 0, true⟩, none),
          (⟨⟨[]⟩, KernelArgType.Constant, 2, 3, 0, false⟩,
            some (.constant [5, 6]))].filter fun p => !p.1.dead)) ∧
    ∃ s1 s2 bs,
      marshalArgs ⟨[], [], [], [], [], [], [], [], [], 0⟩
          [(⟨⟨[]⟩, KernelArgType.Constant, 4, 9, 0, true⟩, none)] = some s1 ∧
      marshalStep s1 ⟨⟨[]⟩, KernelArgType.Constant, 2, 3, 0, false⟩
          (some (.constant [5, 6])) = some s2 ∧
      s2.input = listResize s1.input 3 ++ bs ∧
      bs.length = inlineLen (some (.constant [5, 6])) ∧
      ((⟨[0, 0, 0, 5, 6], [], [], [], [], [], [], [], [], 0⟩ :
        LaunchState).input.drop 3).take (inlineLen (some (.constant [5, 6]))) = bs := by
  refine ⟨claim_C8.1 _ _, ?_⟩
  exact claim_C8.2 [(⟨⟨[]⟩, KernelArgType.Constant, 4, 9, 0, true⟩, none)]
    ⟨⟨[]⟩, KernelArgType.Constant, 2, 3, 0, false⟩ (some (.constant [5, 6])) []
    ⟨[], [], [], [], [], [], [], [], [], 0⟩
    ⟨[0, 0, 0, 5, 6], [], [], [], [], [], [], [], [], 0⟩
    (by decide) (by decide) (by decide) (by decide)

end ZinkSpec
